import Mathlib

/-!
Verification of the o2despy discrete-event simulation kernel.

This file gives a shallow embedding of the core of the `o2despy`
repository (files `o2despy/event.py`, `o2despy/sandbox.py`,
`o2despy/hour_counter.py`, `o2despy/action.py`,
`commons/time_tools.py`) and proves properties of that embedding.

Modelling conventions:
* `datetime` instants are rational numbers of seconds
  (`datetime.min` becomes `0`); `timedelta` values are rational
  numbers of seconds; `timedelta2hours` divides by 3600.
* Python `dict`s are association lists in insertion order with
  unique keys; `sortedcontainers.SortedSet` is a sorted `List`.
* Python exceptions raised by a method are modelled by returning
  the (possibly partially mutated) state together with an
  `Option` error code: mutations performed before the `raise`
  survive it, exactly as in Python.
* Event actions are inert (invoking an event does not mutate the
  kernel state): the claims treated here quantify over schedules
  performed before the run, and the kernel itself never mutates
  counters or queues from inside `Event.invoke`.
-/

namespace O2DES

/-- An `Event` as in `o2despy/event.py`: a globally indexed record with a
scheduled time.  The `tag`, `owner` and bound action do not affect
ordering or kernel state and are omitted. -/
structure Event where
  index : Nat
  time : ℚ
deriving DecidableEq, Repr

/-- The order `Event.__lt__`: compare scheduled times, break ties by the
globally unique creation index. -/
def evLT (a b : Event) : Prop :=
  if a.time = b.time then a.index < b.index else a.time < b.time

instance : DecidableRel evLT := fun a b => by
  unfold evLT; infer_instance

/-- Insert an event into a `SortedSet`-ordered future event list,
preserving the `(time, index)` order. -/
def insertEv (e : Event) : List Event → List Event
  | [] => [e]
  | x :: xs => if evLT e x then e :: x :: xs else x :: insertEv e xs

/-- A sandbox tree node, as built by `Sandbox.__init__` / `add_child` /
`add_hour_counter`: the first-event flag, the local future event list
(kept in `(time, index)` order, as the `SortedSet` does), the indices of
the hour counters owned by this node, the warmup subscription list
(indices of the hour counters whose `warmup` was spliced into this
node's `on_warmup` Action), and the child sandboxes in insertion
order. -/
inductive SB : Type where
  | mk (flag : Bool) (fel : List Event) (hcs : List Nat) (onWarmup : List Nat)
      (children : List SB)
deriving Repr

/-- The `is_first_event_scheduled` flag of a node. -/
def SB.flag : SB → Bool
  | .mk f _ _ _ _ => f

/-- The local `future_event_list` of a node. -/
def SB.fel : SB → List Event
  | .mk _ l _ _ _ => l

/-- The indices of the hour counters owned by a node. -/
def SB.hcs : SB → List Nat
  | .mk _ _ h _ _ => h

/-- The warmup subscription list of a node. -/
def SB.onWarmup : SB → List Nat
  | .mk _ _ _ w _ => w

/-- The child sandboxes of a node. -/
def SB.children : SB → List SB
  | .mk _ _ _ _ cs => cs

mutual

/-- All events in all local queues of a tree, root queue first. -/
def allEvents : SB → List Event
  | .mk _ fel _ _ cs => fel ++ allEventsL cs

/-- All events in a forest of sandboxes. -/
def allEventsL : List SB → List Event
  | [] => []
  | c :: cs => allEvents c ++ allEventsL cs

end

mutual

/-- All local future event lists of a tree. -/
def fels : SB → List (List Event)
  | .mk _ fel _ _ cs => fel :: felsL cs

/-- All local future event lists of a forest. -/
def felsL : List SB → List (List Event)
  | [] => []
  | c :: cs => fels c ++ felsL cs

end

mutual

/-- All hour counter indices in a tree. -/
def allHCs : SB → List Nat
  | .mk _ _ hcs _ cs => hcs ++ allHCsL cs

/-- All hour counter indices in a forest. -/
def allHCsL : List SB → List Nat
  | [] => []
  | c :: cs => allHCs c ++ allHCsL cs

end

/-- One comparison step of `Sandbox.head_event`: keep the current best
candidate unless the child's head exists and is smaller (or there is no
current candidate yet, in which case the child's head is taken even if
it is `None`). -/
def pick (acc ch : Option Event) : Option Event :=
  match acc with
  | none => ch
  | some a =>
    match ch with
    | none => some a
    | some c => if evLT c a then some c else some a

mutual

/-- `Sandbox.head_event`: the earliest event of the local queue and of
every child's head, found by a left fold exactly as the Python loop
does. -/
def headEvent : SB → Option Event
  | .mk _ fel _ _ cs => headFold fel.head? cs

/-- The fold of `pick` over the children, started from the local head. -/
def headFold : Option Event → List SB → Option Event
  | acc, [] => acc
  | acc, c :: cs => headFold (pick acc (headEvent c)) cs

end

mutual

/-- Removal of an extracted event from its owner's queue
(`head.owner.future_event_list.discard(head)`): the event value occurs
in exactly one queue, so filtering every queue is the same removal. -/
def removeEv (e : Event) : SB → SB
  | .mk f fel hcs w cs =>
      .mk f (fel.filter (fun x => decide (x ≠ e))) hcs w (removeEvL e cs)

/-- Removal of an event from every queue of a forest. -/
def removeEvL (e : Event) : List SB → List SB
  | [] => []
  | c :: cs => removeEv e c :: removeEvL e cs

end

mutual

/-- Navigation to a node of the tree along a path of child positions. -/
def getNode : SB → List Nat → Option SB
  | t, [] => some t
  | .mk _ _ _ _ cs, n :: p => getNodeL cs n p

/-- Navigation helper over the list of children. -/
def getNodeL : List SB → Nat → List Nat → Option SB
  | [], _, _ => none
  | c :: _, 0, p => getNode c p
  | _ :: cs, n + 1, p => getNodeL cs n p

end

mutual

/-- The effect of `update_first_event_clock_time`: mark the scheduling
node and all its ancestors up to the root as having scheduled their
first event. -/
def setFlags : SB → List Nat → SB
  | .mk _ fel hcs w cs, [] => .mk true fel hcs w cs
  | .mk _ fel hcs w cs, n :: p => .mk true fel hcs w (setFlagsL cs n p)

/-- Flag-setting helper over the list of children. -/
def setFlagsL : List SB → Nat → List Nat → List SB
  | [], _, _ => []
  | c :: cs, 0, p => setFlags c p :: cs
  | c :: cs, n + 1, p => c :: setFlagsL cs n p

end

mutual

/-- Insertion of a freshly constructed event into the future event list
of the node at the given path (`self._future_event_list.add(...)`). -/
def insertAt (e : Event) : SB → List Nat → SB
  | .mk f fel hcs w cs, [] => .mk f (insertEv e fel) hcs w cs
  | .mk f fel hcs w cs, n :: p => .mk f fel hcs w (insertAtL e cs n p)

/-- Insertion helper over the list of children. -/
def insertAtL (e : Event) : List SB → Nat → List Nat → List SB
  | [], _, _ => []
  | c :: cs, 0, p => insertAt e c p :: cs
  | c :: cs, n + 1, p => c :: insertAtL e cs n p

end

/-- The state held at the root sandbox: the authoritative clock, the
process-global `Event._count`, the root's `first_event_clock_time`, and
the sandbox tree. -/
structure RootState where
  clock : ℚ
  counter : Nat
  firstClock : ℚ
  tree : SB
deriving Repr

/-- The shape of the `clock_time` argument of `Sandbox.schedule`:
omitted, a `timedelta`, an absolute `datetime` (a converted
`pd.Timestamp` lands here as well), or a value of unrecognized type. -/
inductive ClockArg : Type where
  | omitted : ClockArg
  | delta (d : ℚ) : ClockArg
  | abs (t : ℚ) : ClockArg
  | badType : ClockArg
deriving DecidableEq, Repr

/-- The `TypeError`s that `Sandbox.schedule` can raise. -/
inductive SchedErr : Type where
  | notCallable : SchedErr
  | badClockTime : SchedErr
deriving DecidableEq, Repr

/-- Resolution of the scheduled time from `clock_time` and the current
clock, as in `Sandbox.schedule`. -/
def resolveCT (now : ℚ) : ClockArg → Option ℚ
  | .omitted => some (now + 0)
  | .delta d => some (now + d)
  | .abs t => some t
  | .badType => none

/-- `Sandbox.schedule` called on the node at `path` of the tree.
`callable` records whether the passed action is callable.  The
first-event bookkeeping is mutated before the callable and clock-time
checks, so a raised `TypeError` (returned as `some` error together with
the state) leaves that mutation behind, as in the Python code. -/
def schedule (st : RootState) (path : List Nat) (callable : Bool)
    (ct : ClockArg) : RootState × Option SchedErr :=
  match getNode st.tree path with
  | none => (st, none)
  | some node =>
    let tree1 := if node.flag = false then setFlags st.tree path else st.tree
    let fc1 := if node.flag = false then st.clock else st.firstClock
    let st1 : RootState :=
      { clock := st.clock, counter := st.counter, firstClock := fc1, tree := tree1 }
    if callable = false then (st1, some .notCallable)
    else
      match resolveCT st.clock ct with
      | none => (st1, some .badClockTime)
      | some τ =>
        ({ clock := st.clock, counter := st.counter + 1, firstClock := fc1,
           tree := insertAt ⟨st.counter + 1, τ⟩ tree1 path }, none)

/-- `Sandbox.run_once` at the root: extract the tree-wide head event,
remove it from its owner's queue, advance the clock to its scheduled
time and invoke it (event actions are inert here).  Returns whether an
event was fired. -/
def run_once (st : RootState) : RootState × Bool :=
  match headEvent st.tree with
  | none => (st, false)
  | some e =>
      ({ clock := e.time, counter := st.counter, firstClock := st.firstClock,
         tree := removeEv e st.tree }, true)

/-- The sequence of events fired by `n` successive `run_once` calls. -/
def firedSeq : RootState → Nat → List Event
  | _, 0 => []
  | st, n + 1 =>
    match headEvent st.tree with
    | none => []
    | some e =>
        e :: firedSeq { clock := e.time, counter := st.counter,
                        firstClock := st.firstClock, tree := removeEv e st.tree } n

/-- The loop body of `Sandbox.run_until`, with explicit fuel so that the
definition is structural (the fuel is always sufficient: each iteration
removes one event from the tree). -/
def runUntilGo : Nat → RootState → ℚ → RootState × Bool
  | 0, st, terminate =>
      ({ clock := terminate, counter := st.counter, firstClock := st.firstClock,
         tree := st.tree }, false)
  | fuel + 1, st, terminate =>
    match headEvent st.tree with
    | none =>
        ({ clock := terminate, counter := st.counter, firstClock := st.firstClock,
           tree := st.tree }, false)
    | some e =>
      if e.time > terminate then
        ({ clock := terminate, counter := st.counter, firstClock := st.firstClock,
           tree := st.tree }, true)
      else
        runUntilGo fuel
          { clock := e.time, counter := st.counter, firstClock := st.firstClock,
            tree := removeEv e st.tree } terminate

/-- `Sandbox.run_until`: repeat `run_once` while the head event exists
and its scheduled time does not exceed `terminate`; on exit set the
clock to `terminate` and return whether a head event remains. -/
def runUntil (st : RootState) (terminate : ℚ) : RootState × Bool :=
  runUntilGo ((allEvents st.tree).length + 1) st terminate

/-- One recorded call to `Sandbox.schedule`: the sandbox it is made on,
whether the action argument is callable, and the `clock_time`
argument. -/
structure SchedCall where
  path : List Nat
  callable : Bool
  ct : ClockArg
deriving Repr

/-- A sequence of `schedule` calls applied to the kernel state
(raised `TypeError`s leave the partially mutated state behind). -/
def applyCalls (st : RootState) (cs : List SchedCall) : RootState :=
  cs.foldl (fun s c => (schedule s c.path c.callable c.ct).1) st

/-- `commons.time_tools.timedelta2hours`: a timedelta in seconds
converted to hours. -/
def timedelta2hours (td : ℚ) : ℚ := td / 3600

/-- The state of a `HourCounter` (`o2despy/hour_counter.py`).  Times are
rational seconds, `hours_for_count` and `history` are association lists
in insertion order with unique keys, like the Python dicts. -/
structure HourCounter where
  initial_time : ℚ
  last_time : ℚ
  last_count : ℤ
  cum_value : ℚ
  total_hours : ℚ
  total_increment : ℤ
  total_decrement : ℤ
  paused : Bool
  hours_for_count : List (ℤ × ℚ)
  keep_history : Bool
  history : List (ℚ × ℤ)
deriving DecidableEq, Repr

/-- A freshly constructed counter (`HourCounter.__init__` with the
default `initial_time=None`, i.e. `datetime.min`, modelled as `0`). -/
def freshHC (keep_history : Bool) : HourCounter :=
  { initial_time := 0, last_time := 0, last_count := 0, cum_value := 0,
    total_hours := 0, total_increment := 0, total_decrement := 0,
    paused := false, hours_for_count := [], keep_history := keep_history,
    history := [] }

/-- The dict update `d.setdefault(k, 0); d[k] += v`: add to the first
matching key, or append the key at the end in insertion order. -/
def updateAssoc : List (ℤ × ℚ) → ℤ → ℚ → List (ℤ × ℚ)
  | [], k, v => [(k, v)]
  | (k', v') :: rest, k, v =>
      if k' = k then (k', v' + v) :: rest else (k', v') :: updateAssoc rest k v

/-- The dict write `d[k] = v`: overwrite the first matching key, or
append at the end in insertion order. -/
def setAssoc : List (ℚ × ℤ) → ℚ → ℤ → List (ℚ × ℤ)
  | [], k, v => [(k, v)]
  | (k', v') :: rest, k, v =>
      if k' = k then (k', v) :: rest else (k', v') :: setAssoc rest k v

/-- Dict lookup with missing keys reading as `0` (the value a key holds
immediately after `setdefault(k, 0)`). -/
def lookupQ : List (ℤ × ℚ) → ℤ → ℚ
  | [], _ => 0
  | (k', v') :: rest, k => if k' = k then v' else lookupQ rest k

/-- Dict lookup in the history mapping. -/
def lookupHist : List (ℚ × ℤ) → ℚ → Option ℤ
  | [], _ => none
  | (k', v') :: rest, k => if k' = k then some v' else lookupHist rest k

/-- The errors `HourCounter.observe_count` can raise. -/
inductive HCErr : Type where
  | clockMismatch : HCErr
  | clockOutOfOrder : HCErr
deriving DecidableEq, Repr

/-- `HourCounter.observe_count`.  `clock_arg` is the optional explicit
`clock_time` argument (a `datetime` is always truthy in Python, so the
`_check_clock_time` guard `if clock_time and ...` fires exactly when the
argument is supplied); `sandboxClock` is `self._sandbox.clock_time`.
Raises are returned as `some` error with the unchanged state, since the
Python method mutates nothing before raising. -/
def observe_count (hc : HourCounter) (count : ℤ) (clock_arg : Option ℚ)
    (sandboxClock : ℚ) : HourCounter × Option HCErr :=
  if (match clock_arg with
      | some t => decide (t ≠ sandboxClock)
      | none => false) then
    (hc, some .clockMismatch)
  else
    if sandboxClock < hc.last_time then (hc, some .clockOutOfOrder)
    else
      let hc1 : HourCounter :=
        if hc.paused then hc
        else
          let hours := timedelta2hours (sandboxClock - hc.last_time)
          { hc with
            total_hours := hc.total_hours + hours,
            cum_value := hc.cum_value + hours * (hc.last_count : ℚ),
            total_increment :=
              if count > hc.last_count then hc.total_increment + (count - hc.last_count)
              else hc.total_increment,
            total_decrement :=
              if count > hc.last_count then hc.total_decrement
              else hc.total_decrement + (hc.last_count - count),
            hours_for_count := updateAssoc hc.hours_for_count hc.last_count hours }
      let hc2 : HourCounter :=
        if hc.keep_history then { hc1 with history := setAssoc hc1.history sandboxClock count }
        else hc1
      ({ hc2 with last_time := sandboxClock, last_count := count }, none)

/-- `HourCounter.warmup`: reset everything except `last_count` (and the
`paused` flag and history) to the owning sandbox's current clock /
zero. -/
def warmupHC (hc : HourCounter) (sandboxClock : ℚ) : HourCounter :=
  { hc with
    initial_time := sandboxClock,
    last_time := sandboxClock,
    cum_value := 0,
    total_hours := 0,
    total_increment := 0,
    total_decrement := 0,
    hours_for_count := [] }

/-- Insertion of one key-value pair into a list sorted by key
ascending. -/
def insortPair (p : ℤ × ℚ) : List (ℤ × ℚ) → List (ℤ × ℚ)
  | [] => [p]
  | q :: qs => if p.1 ≤ q.1 then p :: q :: qs else q :: insortPair p qs

/-- `HourCounter._sort_hours_for_count`: the dict rebuilt with its keys
in ascending order (`{key: d[key] for key in sorted(d)}`). -/
def sortHFC (l : List (ℤ × ℚ)) : List (ℤ × ℚ) := l.foldr insortPair []

/-- The bucket low bound of `HourCounter.histogram`:
`count // width * width` (Python floor division), with an exact positive
multiple of the width pushed down into the lower bucket. -/
def lbOf (width count : ℤ) : ℤ :=
  let lb := count.fdiv width * width
  if 0 < lb ∧ lb = count then lb - width else lb

/-- Python banker's rounding of a rational to an integer
(`round-half-to-even`, the semantics of `round` on an exact value). -/
def roundHE (q : ℚ) : ℤ :=
  if q - (⌊q⌋ : ℚ) < 1 / 2 then ⌊q⌋
  else if 1 / 2 < q - (⌊q⌋ : ℚ) then ⌊q⌋ + 1
  else if ⌊q⌋ % 2 = 0 then ⌊q⌋ else ⌊q⌋ + 1

/-- Python `round(x, 2)` on an exact value. -/
def round2 (q : ℚ) : ℚ := (roundHE (100 * q) : ℚ) / 100

/-- The accumulation of dwell hours into buckets, iterating the sorted
`hours_for_count` dict and building `lb2hours` in insertion order. -/
def lb2hours (width : ℤ) (hfc : List (ℤ × ℚ)) : List (ℤ × ℚ) :=
  (sortHFC hfc).foldl (fun acc p => updateAssoc acc (lbOf width p.1) p.2) []

/-- The cumulative pass over `lb2hours`, producing for each bucket the
triple `(round(hours, 2), round(hours / total, 2),
round(cum_hours / total, 2))`. -/
def histTriples (total : ℚ) : ℚ → List (ℤ × ℚ) → List (ℤ × (ℚ × ℚ × ℚ))
  | _, [] => []
  | cum, p :: rest =>
      (p.1, (round2 p.2, round2 (p.2 / total), round2 ((cum + p.2) / total)))
        :: histTriples total (cum + p.2) rest

/-- `HourCounter.histogram(count_interval)` as a function of the
`hours_for_count` dict: empty input gives an empty dict, otherwise the
buckets in insertion order with rounded hours, ratio and cumulative
ratio. -/
def histogram (width : ℤ) (hfc : List (ℤ × ℚ)) : List (ℤ × (ℚ × ℚ × ℚ)) :=
  if hfc = [] then []
  else
    let l := lb2hours width hfc
    let total := (l.map Prod.snd).sum
    histTriples total 0 l

/-- A function-backed store of hour counters, indexed by creation
order. -/
def HCStore : Type := Nat → HourCounter

/-- Pointwise update of the store. -/
def updStore (s : HCStore) (i : Nat) (hc : HourCounter) : HCStore :=
  fun j => if j = i then hc else s j

/-- The root state together with the hour counter store and the next
fresh counter index. -/
structure SimState where
  root : RootState
  store : HCStore
  nextHC : Nat

/-- `Sandbox.__init__`: a fresh sandbox node; the constructor creates
the `main_hc` via `add_hour_counter`, which appends it to both the
node's counter list and its `on_warmup` subscriptions. -/
def mkSandbox (next : Nat) : SB × Nat :=
  (.mk false [] [next] [next] [], next + 1)

/-- `Sandbox.add_child`: append the child, and splice the child's
current `on_warmup` subactions into the parent's (a snapshot: counters
added to the child afterwards are not propagated). -/
def addChild (parent child : SB) : SB :=
  match parent with
  | .mk f fel hcs w cs => .mk f fel hcs (w ++ child.onWarmup) (cs ++ [child])

mutual

/-- `Sandbox.add_hour_counter` on the node at `path`: register a fresh
counter in the node's counter list and its own `on_warmup`
subscriptions (only this node's, not its ancestors'). -/
def addHourCounterAt : SB → List Nat → Nat → SB
  | .mk f fel hcs w cs, [], next => .mk f fel (hcs ++ [next]) (w ++ [next]) cs
  | .mk f fel hcs w cs, n :: p, next => .mk f fel hcs w (addHCL cs n p next)

/-- Counter registration helper over the list of children. -/
def addHCL : List SB → Nat → List Nat → Nat → List SB
  | [], _, _, _ => []
  | c :: cs, 0, p, next => addHourCounterAt c p next :: cs
  | c :: cs, n + 1, p, next => c :: addHCL cs n p next

end

/-- Creation of the fresh counter object that `add_hour_counter` stores
(`HourCounter(self)` with `initial_time = datetime.min`). -/
def addHourCounter (s : SimState) (path : List Nat) (keep_history : Bool) :
    SimState :=
  { root := { clock := s.root.clock, counter := s.root.counter,
              firstClock := s.root.firstClock,
              tree := addHourCounterAt s.root.tree path s.nextHC },
    store := updStore s.store s.nextHC (freshHC keep_history),
    nextHC := s.nextHC + 1 }

/-- `Sandbox.warmup_until(till)` at the root: `run(terminate=till)`,
then invoke `on_warmup`, i.e. call `warmup` on every hour counter whose
index was spliced into the root's subscription list, each reading the
root clock (which `run_until` has just set to `till`). -/
def warmupUntil (s : SimState) (till : ℚ) : SimState × Bool :=
  let r := runUntil s.root till
  let store1 := (r.1.tree.onWarmup).foldl
    (fun st i => updStore st i (warmupHC (st i) r.1.clock)) s.store
  ({ root := r.1, store := store1, nextHC := s.nextHC }, r.2)

/-- A callable as seen by `Action._check_subaction`: an opaque identity
and the residual arity (declared positional parameters without defaults,
minus any arguments already bound by `functools.partial`). -/
structure Subaction where
  name : Nat
  residualArity : Nat
deriving DecidableEq, Repr

/-- An `Action` (`o2despy/action.py`): the declared argument count and
the ordered list of encapsulated subactions. -/
structure Action where
  argcount : Nat
  subactions : List Subaction
deriving DecidableEq, Repr

/-- `Action.add` restricted to a list of subactions (an `Action`
argument contributes exactly its `subactions` tuple).  With `check`
enabled, `_check_subaction` raises on the first arity mismatch;
subactions appended before the raise stay appended. -/
def Action.addList (a : Action) (ss : List Subaction) (check : Bool) :
    Action × Option Unit :=
  match ss with
  | [] => (a, none)
  | s :: rest =>
    if check ∧ s.residualArity ≠ a.argcount then (a, some ())
    else Action.addList ⟨a.argcount, a.subactions ++ [s]⟩ rest check

/-- `Action.__add__`: a new action with the same declared signature,
`add(self, False)` then `add(value)` with the default `check=True`. -/
def Action.combine (a b : Action) : Action × Option Unit :=
  let n1 := (Action.addList ⟨a.argcount, []⟩ a.subactions false).1
  Action.addList n1 b.subactions true

/-- `Action.invoke(*args)` observed as a call trace: each subaction is
called with the same arguments, in insertion order, return values
ignored. -/
def Action.invokeTrace (a : Action) (args : Nat) : List (Subaction × Nat) :=
  a.subactions.map (fun s => (s, args))

/-- Every local queue of the tree is in strict `(time, index)` order —
the `SortedSet` invariant. -/
def SortedFels (t : SB) : Prop := ∀ l ∈ fels t, l.Pairwise evLT

/-- The `SortedSet` invariant for a forest. -/
def SortedFelsL (cs : List SB) : Prop := ∀ l ∈ felsL cs, l.Pairwise evLT

/-- Distinctness of the globally unique event indices. -/
def idxNe (a b : Event) : Prop := a.index ≠ b.index

/-- The kernel invariant: all queues sorted, all event indices distinct,
and all indices bounded by the global `Event._count`. -/
def WF (st : RootState) : Prop :=
  SortedFels st.tree ∧ (allEvents st.tree).Pairwise idxNe ∧
  ∀ x ∈ allEvents st.tree, x.index ≤ st.counter

theorem evLT_iff (a b : Event) :
    evLT a b ↔ a.time < b.time ∨ (a.time = b.time ∧ a.index < b.index) := by
  unfold evLT
  by_cases h : a.time = b.time
  · rw [if_pos h]
    constructor
    · intro hi; exact Or.inr ⟨h, hi⟩
    · rintro (ht | ⟨_, hi⟩)
      · exact absurd h (ne_of_lt ht)
      · exact hi
  · rw [if_neg h]
    constructor
    · intro ht; exact Or.inl ht
    · rintro (ht | ⟨he, _⟩)
      · exact ht
      · exact absurd he h

theorem evLT_irrefl (a : Event) : ¬ evLT a a := by
  rw [evLT_iff]; simp

theorem evLT_trans {a b c : Event} (h1 : evLT a b) (h2 : evLT b c) : evLT a c := by
  rw [evLT_iff] at h1 h2 ⊢
  rcases h1 with h1 | ⟨h1e, h1i⟩ <;> rcases h2 with h2 | ⟨h2e, h2i⟩
  · exact Or.inl (lt_trans h1 h2)
  · exact Or.inl (h2e ▸ h1)
  · exact Or.inl (h1e ▸ h2)
  · exact Or.inr ⟨h1e.trans h2e, Nat.lt_trans h1i h2i⟩

theorem evLT_trichotomy (a b : Event) :
    evLT a b ∨ evLT b a ∨ (a.time = b.time ∧ a.index = b.index) := by
  rw [evLT_iff, evLT_iff]
  rcases lt_trichotomy a.time b.time with h | h | h
  · exact Or.inl (Or.inl h)
  · rcases Nat.lt_trichotomy a.index b.index with hi | hi | hi
    · exact Or.inl (Or.inr ⟨h, hi⟩)
    · exact Or.inr (Or.inr ⟨h, hi⟩)
    · exact Or.inr (Or.inl (Or.inr ⟨h.symm, hi⟩))
  · exact Or.inr (Or.inl (Or.inl h))

theorem evLT_asymm {a b : Event} (h : evLT a b) : ¬ evLT b a := by
  intro h2
  exact evLT_irrefl a (evLT_trans h h2)

/-- Transitivity of the reflexive closure in negated form. -/
theorem not_evLT_trans {a b c : Event} (h1 : ¬ evLT a b) (h2 : ¬ evLT b c) :
    ¬ evLT a c := by
  intro hac
  rcases evLT_trichotomy a b with h | h | ⟨he, hi⟩
  · exact h1 h
  · exact h2 (evLT_trans h hac)
  · apply h2
    rw [evLT_iff] at hac ⊢
    rcases hac with hac | ⟨hace, haci⟩
    · exact Or.inl (he ▸ hac)
    · exact Or.inr ⟨he ▸ hace, hi ▸ haci⟩

theorem insertEv_perm (e : Event) (l : List Event) :
    List.Perm (insertEv e l) (e :: l) := by
  induction l with
  | nil => simp [insertEv]
  | cons x xs ih =>
    unfold insertEv
    by_cases h : evLT e x
    · simp [h]
    · simp only [h, if_false]
      exact (List.Perm.cons x ih).trans (List.Perm.swap e x xs)

theorem insertEv_pairwise (e : Event) (l : List Event)
    (hs : l.Pairwise evLT) (hfresh : ∀ x ∈ l, x.index ≠ e.index) :
    (insertEv e l).Pairwise evLT := by
  induction l with
  | nil => simp [insertEv]
  | cons x xs ih =>
    unfold insertEv
    rcases List.pairwise_cons.mp hs with ⟨hx, hxs⟩
    by_cases h : evLT e x
    · simp only [h, if_true]
      refine List.pairwise_cons.mpr ⟨?_, hs⟩
      intro y hy
      rcases List.mem_cons.mp hy with hy | hy
      · exact hy ▸ h
      · exact evLT_trans h (hx y hy)
    · simp only [h, if_false]
      refine List.pairwise_cons.mpr ⟨?_, ih hxs (fun y hy => hfresh y (List.mem_cons_of_mem x hy))⟩
      intro y hy
      have hy' := (insertEv_perm e xs).mem_iff.mp hy
      rcases List.mem_cons.mp hy' with hy' | hy'
      · subst hy'
        rcases evLT_trichotomy x y with hh | hh | ⟨he, hi⟩
        · exact hh
        · exact absurd hh h
        · exact absurd hi (hfresh x (List.mem_cons_self x xs))
      · exact hx y hy'

theorem addList_nocheck (a : Action) (ss : List Subaction) :
    Action.addList a ss false = (⟨a.argcount, a.subactions ++ ss⟩, none) := by
  induction ss generalizing a with
  | nil => simp [Action.addList]
  | cons s rest ih =>
    unfold Action.addList
    rw [if_neg (by simp)]
    rw [ih]
    simp [List.append_assoc]

theorem addList_checked (a : Action) (ss : List Subaction)
    (h : ∀ s ∈ ss, s.residualArity = a.argcount) :
    Action.addList a ss true = (⟨a.argcount, a.subactions ++ ss⟩, none) := by
  induction ss generalizing a with
  | nil => simp [Action.addList]
  | cons s rest ih =>
    unfold Action.addList
    have hs : s.residualArity = a.argcount := h s (List.mem_cons_self s rest)
    rw [if_neg (by simp [hs])]
    rw [ih ⟨a.argcount, a.subactions ++ [s]⟩ (fun x hx => h x (List.mem_cons_of_mem s hx))]
    simp [List.append_assoc]

/-- Claim C7: combining two Actions of the same declared arity (whose
callables all match that arity) yields an Action that, when invoked,
calls exactly the callables of the first operand in insertion order and
then exactly the callables of the second, ignoring return values. -/
theorem action_combine_invoke (a b : Action) (x : Nat)
    (ha : ∀ s ∈ a.subactions, s.residualArity = a.argcount)
    (hb : ∀ s ∈ b.subactions, s.residualArity = b.argcount)
    (hn : a.argcount = b.argcount) :
    (Action.combine a b).2 = none ∧
      (Action.combine a b).1.invokeTrace x =
        a.invokeTrace x ++ b.invokeTrace x := by
  unfold Action.combine
  rw [addList_nocheck]
  simp only [List.nil_append]
  rw [addList_checked ⟨a.argcount, a.subactions⟩ b.subactions
    (fun s hs => (hb s hs).trans hn.symm)]
  refine ⟨rfl, ?_⟩
  simp [Action.invokeTrace]

/-- Witness for claim C7 at a concrete pair of actions. -/
theorem action_combine_invoke_witness :
    (Action.combine ⟨2, [⟨0, 2⟩, ⟨1, 2⟩]⟩ ⟨2, [⟨5, 2⟩]⟩).2 = none ∧
      (Action.combine ⟨2, [⟨0, 2⟩, ⟨1, 2⟩]⟩ ⟨2, [⟨5, 2⟩]⟩).1.invokeTrace 7 =
        Action.invokeTrace ⟨2, [⟨0, 2⟩, ⟨1, 2⟩]⟩ 7 ++ Action.invokeTrace ⟨2, [⟨5, 2⟩]⟩ 7 :=
  action_combine_invoke ⟨2, [⟨0, 2⟩, ⟨1, 2⟩]⟩ ⟨2, [⟨5, 2⟩]⟩ 7
    (by decide) (by decide) rfl

theorem lookupQ_updateAssoc (l : List (ℤ × ℚ)) (k : ℤ) (v : ℚ) :
    lookupQ (updateAssoc l k v) k = lookupQ l k + v := by
  induction l with
  | nil => simp [updateAssoc, lookupQ]
  | cons p rest ih =>
    unfold updateAssoc
    by_cases h : p.1 = k
    · simp [lookupQ, h]
    · simp only [h, if_false]
      simp [lookupQ, h, ih]

theorem lookupHist_setAssoc (l : List (ℚ × ℤ)) (k : ℚ) (v : ℤ) :
    lookupHist (setAssoc l k v) k = some v := by
  induction l with
  | nil => simp [setAssoc, lookupHist]
  | cons p rest ih =>
    unfold setAssoc
    by_cases h : p.1 = k
    · simp [lookupHist, h]
    · simp only [h, if_false]
      simp [lookupHist, h, ih]

/-- The full effect of a successful unpaused `observe_count`, read off
the code. -/
theorem observe_count_unpaused_eq (hc : HourCounter) (count : ℤ) (t : ℚ)
    (hp : hc.paused = false) (hge : hc.last_time ≤ t) :
    observe_count hc count (some t) t =
      ({ hc with
          last_time := t,
          last_count := count,
          cum_value := hc.cum_value + timedelta2hours (t - hc.last_time) * (hc.last_count : ℚ),
          total_hours := hc.total_hours + timedelta2hours (t - hc.last_time),
          total_increment :=
            if count > hc.last_count then hc.total_increment + (count - hc.last_count)
            else hc.total_increment,
          total_decrement :=
            if count > hc.last_count then hc.total_decrement
            else hc.total_decrement + (hc.last_count - count),
          hours_for_count :=
            updateAssoc hc.hours_for_count hc.last_count (timedelta2hours (t - hc.last_time)),
          history :=
            if hc.keep_history = true then setAssoc hc.history t count else hc.history },
        none) := by
  unfold observe_count
  rw [if_neg (by simp)]
  rw [if_neg (not_lt.mpr hge)]
  simp only [hp, Bool.false_eq_true, if_false]
  by_cases hk : hc.keep_history = true
  · simp [hk]
  · simp [hk]

/-- Claim C2: an unpaused `observe_count(c, t)` with `t` equal to the
sandbox clock and `t ≥ last_time` accrues `Δh = hours(t − last_time)`
onto `total_hours`, `Δh·last_count` onto `cum_value`, `Δh` onto
`hours_for_count[last_count]`, adds `max(c − last_count, 0)` to
`total_increment` and `max(last_count − c, 0)` to `total_decrement`,
then sets `last_time = t`, `last_count = c`, recording
`history[t] = c` when history is enabled. -/
theorem observe_count_unpaused_spec (hc : HourCounter) (count : ℤ) (t : ℚ)
    (hp : hc.paused = false) (hge : hc.last_time ≤ t) :
    (observe_count hc count (some t) t).2 = none ∧
    (observe_count hc count (some t) t).1.total_hours =
      hc.total_hours + timedelta2hours (t - hc.last_time) ∧
    (observe_count hc count (some t) t).1.cum_value =
      hc.cum_value + timedelta2hours (t - hc.last_time) * (hc.last_count : ℚ) ∧
    lookupQ (observe_count hc count (some t) t).1.hours_for_count hc.last_count =
      lookupQ hc.hours_for_count hc.last_count + timedelta2hours (t - hc.last_time) ∧
    (observe_count hc count (some t) t).1.total_increment =
      hc.total_increment + max (count - hc.last_count) 0 ∧
    (observe_count hc count (some t) t).1.total_decrement =
      hc.total_decrement + max (hc.last_count - count) 0 ∧
    (observe_count hc count (some t) t).1.last_time = t ∧
    (observe_count hc count (some t) t).1.last_count = count ∧
    (hc.keep_history = true →
      lookupHist (observe_count hc count (some t) t).1.history t = some count) := by
  rw [observe_count_unpaused_eq hc count t hp hge]
  refine ⟨rfl, by simp, by simp, by simp [lookupQ_updateAssoc], ?_, ?_, by simp, by simp, ?_⟩
  · by_cases hcl : count > hc.last_count
    · simp only [hcl, if_true]; omega
    · simp only [hcl, if_false]; omega
  · by_cases hcl : count > hc.last_count
    · simp only [hcl, if_true]; omega
    · simp only [hcl, if_false]; omega
  · intro hk
    simp [hk, lookupHist_setAssoc]

/-- Witness for claim C2 at a concrete counter and observation. -/
theorem observe_count_unpaused_spec_witness :
    (observe_count (freshHC true) 3 (some 7200) 7200).2 = none ∧
    (observe_count (freshHC true) 3 (some 7200) 7200).1.total_hours =
      (freshHC true).total_hours + timedelta2hours (7200 - (freshHC true).last_time) ∧
    (observe_count (freshHC true) 3 (some 7200) 7200).1.cum_value =
      (freshHC true).cum_value +
        timedelta2hours (7200 - (freshHC true).last_time) * ((freshHC true).last_count : ℚ) ∧
    lookupQ (observe_count (freshHC true) 3 (some 7200) 7200).1.hours_for_count
        (freshHC true).last_count =
      lookupQ (freshHC true).hours_for_count (freshHC true).last_count +
        timedelta2hours (7200 - (freshHC true).last_time) ∧
    (observe_count (freshHC true) 3 (some 7200) 7200).1.total_increment =
      (freshHC true).total_increment + max (3 - (freshHC true).last_count) 0 ∧
    (observe_count (freshHC true) 3 (some 7200) 7200).1.total_decrement =
      (freshHC true).total_decrement + max ((freshHC true).last_count - 3) 0 ∧
    (observe_count (freshHC true) 3 (some 7200) 7200).1.last_time = 7200 ∧
    (observe_count (freshHC true) 3 (some 7200) 7200).1.last_count = 3 ∧
    ((freshHC true).keep_history = true →
      lookupHist (observe_count (freshHC true) 3 (some 7200) 7200).1.history 7200 = some 3) :=
  observe_count_unpaused_spec (freshHC true) 3 7200 rfl (by norm_num [freshHC])

/-- The full effect of a successful paused `observe_count`: the accrual
block is skipped, but `last_time` is still overwritten with the clock at
the end of the method, alongside `last_count` and the history record. -/
theorem observe_count_paused_eq (hc : HourCounter) (count : ℤ) (t : ℚ)
    (hp : hc.paused = true) (hge : hc.last_time ≤ t) :
    observe_count hc count (some t) t =
      ({ hc with
          last_time := t,
          last_count := count,
          history :=
            if hc.keep_history = true then setAssoc hc.history t count else hc.history },
        none) := by
  unfold observe_count
  rw [if_neg (by simp)]
  rw [if_neg (not_lt.mpr hge)]
  simp only [hp, if_true]
  by_cases hk : hc.keep_history = true
  · simp [hk, hp]
  · simp [hk, hp]

/-- Counterexample to claim C5 as stated: for a paused counter,
`observe_count` still overwrites `last_time` with the sandbox clock
(line `self._last_time = clock_time` runs unconditionally), so
`last_time` is not left unchanged. -/
theorem observe_count_paused_last_time_cex :
    ({ freshHC false with paused := true } : HourCounter).last_time = 0 ∧
    (observe_count { freshHC false with paused := true } 5 (some 3600) 3600).2 = none ∧
    (observe_count { freshHC false with paused := true } 5 (some 3600) 3600).1.last_time
      = 3600 := by
  refine ⟨rfl, ?_, ?_⟩ <;> norm_num [observe_count, freshHC]

/-- Claim C5 as amended: a paused `observe_count(c, t)` (with a valid
`t`) leaves `total_hours`, `cum_value`, `total_increment`,
`total_decrement` and `hours_for_count` unchanged — no time accrues —
but updates `last_count` to `c`, sets `last_time` to the clock, and
records history when enabled. -/
theorem observe_count_paused_spec (hc : HourCounter) (count : ℤ) (t : ℚ)
    (hp : hc.paused = true) (hge : hc.last_time ≤ t) :
    (observe_count hc count (some t) t).2 = none ∧
    (observe_count hc count (some t) t).1.total_hours = hc.total_hours ∧
    (observe_count hc count (some t) t).1.cum_value = hc.cum_value ∧
    (observe_count hc count (some t) t).1.total_increment = hc.total_increment ∧
    (observe_count hc count (some t) t).1.total_decrement = hc.total_decrement ∧
    (observe_count hc count (some t) t).1.hours_for_count = hc.hours_for_count ∧
    (observe_count hc count (some t) t).1.last_count = count ∧
    (observe_count hc count (some t) t).1.last_time = t ∧
    (hc.keep_history = true →
      lookupHist (observe_count hc count (some t) t).1.history t = some count) := by
  rw [observe_count_paused_eq hc count t hp hge]
  refine ⟨rfl, rfl, rfl, rfl, rfl, rfl, rfl, rfl, ?_⟩
  intro hk
  simp [hk, lookupHist_setAssoc]

/-- Witness for the amended claim C5 at a concrete paused counter. -/
theorem observe_count_paused_spec_witness :
    (observe_count { freshHC true with paused := true } 2 (some 60) 60).2 = none ∧
    (observe_count { freshHC true with paused := true } 2 (some 60) 60).1.total_hours
      = ({ freshHC true with paused := true } : HourCounter).total_hours ∧
    (observe_count { freshHC true with paused := true } 2 (some 60) 60).1.cum_value
      = ({ freshHC true with paused := true } : HourCounter).cum_value ∧
    (observe_count { freshHC true with paused := true } 2 (some 60) 60).1.total_increment
      = ({ freshHC true with paused := true } : HourCounter).total_increment ∧
    (observe_count { freshHC true with paused := true } 2 (some 60) 60).1.total_decrement
      = ({ freshHC true with paused := true } : HourCounter).total_decrement ∧
    (observe_count { freshHC true with paused := true } 2 (some 60) 60).1.hours_for_count
      = ({ freshHC true with paused := true } : HourCounter).hours_for_count ∧
    (observe_count { freshHC true with paused := true } 2 (some 60) 60).1.last_count = 2 ∧
    (observe_count { freshHC true with paused := true } 2 (some 60) 60).1.last_time = 60 ∧
    (({ freshHC true with paused := true } : HourCounter).keep_history = true →
      lookupHist (observe_count { freshHC true with paused := true } 2 (some 60) 60).1.history 60
        = some 2) :=
  observe_count_paused_spec { freshHC true with paused := true } 2 60 rfl
    (by norm_num [freshHC])

/-- Claim C4 as amended: `observe_count` raises `ClockMismatch` exactly
when an explicit `t` is supplied that differs from the sandbox clock;
it raises `ClockOutOfOrder` exactly when no mismatch is raised and the
sandbox clock is earlier than `last_time` (the mismatch check takes
precedence); in either failure case the counter state is unchanged. -/
theorem observe_count_error_spec (hc : HourCounter) (count : ℤ)
    (arg : Option ℚ) (clock : ℚ) :
    ((observe_count hc count arg clock).2 = some HCErr.clockMismatch ↔
      ∃ u, arg = some u ∧ u ≠ clock) ∧
    ((observe_count hc count arg clock).2 = some HCErr.clockOutOfOrder ↔
      (∀ u, arg = some u → u = clock) ∧ clock < hc.last_time) ∧
    (∀ e, (observe_count hc count arg clock).2 = some e →
      (observe_count hc count arg clock).1 = hc) := by
  unfold observe_count
  rcases arg with _ | u
  · simp only [Bool.false_eq_true, if_false]
    by_cases ho : clock < hc.last_time
    · simp [ho]
    · simp [ho]
  · by_cases hm : u = clock
    · rw [if_neg (by simp [hm])]
      by_cases ho : clock < hc.last_time
      · simp [ho, hm]
      · simp [ho, hm]
    · rw [if_pos (by simp [hm])]
      simp [hm]

/-- Counterexample to claim C4 as stated: with `last_time = 5`, sandbox
clock `3` and an explicit argument `4`, the observation time is earlier
than `last_time`, yet the code raises the clock-mismatch error, not
`ClockOutOfOrder` — the mismatch check takes precedence. -/
theorem observe_count_error_precedence_cex :
    (3 : ℚ) < ({ freshHC false with last_time := 5 } : HourCounter).last_time ∧
    (observe_count { freshHC false with last_time := 5 } 0 (some 4) 3).2 =
      some HCErr.clockMismatch ∧
    (observe_count { freshHC false with last_time := 5 } 0 (some 4) 3).2 ≠
      some HCErr.clockOutOfOrder := by
  refine ⟨by norm_num [freshHC], ?_, ?_⟩ <;> norm_num [observe_count, freshHC]
  decide

/-- Witness for the amended claim C4 at a concrete failing call. -/
theorem observe_count_error_spec_witness :
    (observe_count { freshHC false with last_time := 5 } 0 (some 4) 3).2 =
      some HCErr.clockMismatch ∧
    (observe_count { freshHC false with last_time := 5 } 0 (some 4) 3).1 =
      { freshHC false with last_time := 5 } := by
  have h := observe_count_error_spec { freshHC false with last_time := 5 } 0 (some 4) 3
  have hm := h.1.mpr ⟨4, rfl, by norm_num⟩
  exact ⟨hm, h.2.2 HCErr.clockMismatch hm⟩

theorem setFlags_nil (t : SB) :
    setFlags t [] = .mk true t.fel t.hcs t.onWarmup t.children := by
  cases t
  rfl

/-- Claim C10: the first `schedule` call on a tree with a non-callable
action raises the `TypeError` only after the first-event bookkeeping has
been mutated: the flag is set, `first_event_clock_time` is recorded at
the root, and no event is inserted (the global event counter is also
untouched). -/
theorem schedule_noncallable_first_event (st : RootState) (ct : ClockArg)
    (h : st.tree.flag = false) :
    (schedule st [] false ct).2 = some SchedErr.notCallable ∧
    (schedule st [] false ct).1.tree.flag = true ∧
    (schedule st [] false ct).1.firstClock = st.clock ∧
    allEvents (schedule st [] false ct).1.tree = allEvents st.tree ∧
    (schedule st [] false ct).1.counter = st.counter := by
  unfold schedule
  simp only [getNode, h, if_true, if_pos rfl]
  refine ⟨by trivial, ?_, by trivial, ?_, by trivial⟩
  · rw [setFlags_nil]
    rfl
  · rw [setFlags_nil]
    cases st.tree
    rfl

/-- Witness for claim C10 on a freshly constructed root sandbox. -/
theorem schedule_noncallable_first_event_witness :
    (schedule ⟨10, 0, 0, (mkSandbox 0).1⟩ [] false ClockArg.omitted).2 =
      some SchedErr.notCallable ∧
    (schedule ⟨10, 0, 0, (mkSandbox 0).1⟩ [] false ClockArg.omitted).1.tree.flag = true ∧
    (schedule ⟨10, 0, 0, (mkSandbox 0).1⟩ [] false ClockArg.omitted).1.firstClock = 10 ∧
    allEvents (schedule ⟨10, 0, 0, (mkSandbox 0).1⟩ [] false ClockArg.omitted).1.tree =
      allEvents (mkSandbox 0).1 ∧
    (schedule ⟨10, 0, 0, (mkSandbox 0).1⟩ [] false ClockArg.omitted).1.counter = 0 :=
  schedule_noncallable_first_event ⟨10, 0, 0, (mkSandbox 0).1⟩ ClockArg.omitted rfl

theorem pick_eq_some (a b : Option Event) (e : Event) (h : pick a b = some e) :
    a = some e ∨ b = some e := by
  unfold pick at h
  rcases a with _ | x
  · exact Or.inr h
  · rcases b with _ | y
    · exact Or.inl h
    · dsimp only at h
      by_cases hlt : evLT y x
      · rw [if_pos hlt] at h
        exact Or.inr h
      · rw [if_neg hlt] at h
        exact Or.inl h

mutual

theorem headEvent_mem : ∀ (t : SB) (e : Event), headEvent t = some e → e ∈ allEvents t
  | .mk f fel hcs w cs, e, h => by
    unfold headEvent at h
    unfold allEvents
    rcases headFold_mem cs fel.head? e h with h1 | h1
    · exact List.mem_append_left _ (List.mem_of_mem_head? h1)
    · exact List.mem_append_right _ h1

theorem headFold_mem : ∀ (cs : List SB) (acc : Option Event) (e : Event),
    headFold acc cs = some e → acc = some e ∨ e ∈ allEventsL cs
  | [], acc, e, h => by
    unfold headFold at h
    exact Or.inl h
  | c :: cs, acc, e, h => by
    unfold headFold at h
    rcases headFold_mem cs (pick acc (headEvent c)) e h with h1 | h1
    · rcases pick_eq_some _ _ _ h1 with h2 | h2
      · exact Or.inl h2
      · refine Or.inr ?_
        unfold allEventsL
        exact List.mem_append_left _ (headEvent_mem c e h2)
    · refine Or.inr ?_
      unfold allEventsL
      exact List.mem_append_right _ h1

end

mutual

theorem allEvents_removeEv : ∀ (e : Event) (t : SB),
    allEvents (removeEv e t) = (allEvents t).filter (fun x => decide (x ≠ e))
  | e, .mk f fel hcs w cs => by
    unfold removeEv allEvents
    rw [allEventsL_removeEvL e cs, List.filter_append]

theorem allEventsL_removeEvL : ∀ (e : Event) (cs : List SB),
    allEventsL (removeEvL e cs) = (allEventsL cs).filter (fun x => decide (x ≠ e))
  | e, [] => by
    unfold removeEvL allEventsL
    rfl
  | e, c :: cs => by
    unfold removeEvL allEventsL
    rw [allEvents_removeEv e c, allEventsL_removeEvL e cs, List.filter_append]

end

theorem filter_ne_length_lt (l : List Event) (e : Event) (h : e ∈ l) :
    (l.filter (fun x => decide (x ≠ e))).length < l.length := by
  induction l with
  | nil => simp at h
  | cons a t ih =>
    simp only [List.filter_cons]
    by_cases hae : a = e
    · subst hae
      have hd : (decide (a ≠ a)) = false := by simp
      rw [hd]
      have hlen := List.length_filter_le (fun x => decide (x ≠ a)) t
      simp only [Bool.false_eq_true, if_false, List.length_cons]
      omega
    · rcases List.mem_cons.mp h with h1 | h2
      · exact absurd h1.symm hae
      · have hd : (decide (a ≠ e)) = true := by simp [hae]
        rw [hd]
        have := ih h2
        simp only [if_true, List.length_cons]
        omega

theorem removeEv_onWarmup (e : Event) (t : SB) :
    (removeEv e t).onWarmup = t.onWarmup := by
  cases t
  rfl

/-- Full behaviour of the `run_until` loop with sufficient fuel: the
exit clock is the terminate instant, the returned flag says whether a
head event remains, and the root's warmup subscriptions survive. -/
theorem runUntilGo_spec (fuel : Nat) :
    ∀ (st : RootState) (terminate : ℚ), (allEvents st.tree).length < fuel →
    (runUntilGo fuel st terminate).1.clock = terminate ∧
    ((runUntilGo fuel st terminate).2 = true ↔
      headEvent (runUntilGo fuel st terminate).1.tree ≠ none) ∧
    (runUntilGo fuel st terminate).1.tree.onWarmup = st.tree.onWarmup := by
  induction fuel with
  | zero => intro st terminate hf; omega
  | succ n ih =>
    intro st terminate hf
    unfold runUntilGo
    cases hh : headEvent st.tree with
    | none =>
      refine ⟨rfl, ?_, rfl⟩
      simp [hh]
    | some e =>
      dsimp only
      by_cases hgt : e.time > terminate
      · rw [if_pos hgt]
        refine ⟨rfl, ?_, rfl⟩
        simp [hh]
      · rw [if_neg hgt]
        have hmem := headEvent_mem st.tree e hh
        have hlen : (allEvents (removeEv e st.tree)).length < n := by
          rw [allEvents_removeEv]
          have := filter_ne_length_lt (allEvents st.tree) e hmem
          omega
        have hres := ih ⟨e.time, st.counter, st.firstClock, removeEv e st.tree⟩ terminate hlen
        exact ⟨hres.1, hres.2.1, hres.2.2.trans (removeEv_onWarmup e st.tree)⟩

/-- Claim C3: `run_until(t)` fires events while the tree-wide head is
scheduled no later than `t` (the loop in the definition of `runUntil`),
then sets the root clock to exactly `t`, and returns `true` iff a
pending event remains somewhere in the tree at that point. -/
theorem run_until_spec (st : RootState) (terminate : ℚ) :
    (runUntil st terminate).1.clock = terminate ∧
    ((runUntil st terminate).2 = true ↔
      headEvent (runUntil st terminate).1.tree ≠ none) := by
  have h := runUntilGo_spec ((allEvents st.tree).length + 1) st terminate (by omega)
  exact ⟨h.1, h.2.1⟩

theorem sortedFels_mk (f : Bool) (fel : List Event) (hcs w : List Nat) (cs : List SB) :
    SortedFels (.mk f fel hcs w cs) ↔ fel.Pairwise evLT ∧ SortedFelsL cs := by
  unfold SortedFels SortedFelsL
  constructor
  · intro h
    refine ⟨h fel ?_, fun l hl => h l ?_⟩
    · unfold fels; exact List.mem_cons_self _ _
    · unfold fels; exact List.mem_cons_of_mem _ hl
  · rintro ⟨h1, h2⟩ l hl
    unfold fels at hl
    rcases List.mem_cons.mp hl with hl | hl
    · exact hl ▸ h1
    · exact h2 l hl

theorem sortedFelsL_cons (c : SB) (cs : List SB) :
    SortedFelsL (c :: cs) ↔ SortedFels c ∧ SortedFelsL cs := by
  unfold SortedFels SortedFelsL
  constructor
  · intro h
    refine ⟨fun l hl => h l ?_, fun l hl => h l ?_⟩
    · unfold felsL; exact List.mem_append_left _ hl
    · unfold felsL; exact List.mem_append_right _ hl
  · rintro ⟨h1, h2⟩ l hl
    unfold felsL at hl
    rcases List.mem_append.mp hl with hl | hl
    · exact h1 l hl
    · exact h2 l hl

mutual

theorem mem_fels_mem_allEvents : ∀ (t : SB) (l : List Event), l ∈ fels t →
    ∀ x ∈ l, x ∈ allEvents t
  | .mk f fel hcs w cs, l, hl, x, hx => by
    unfold fels at hl
    unfold allEvents
    rcases List.mem_cons.mp hl with hl | hl
    · exact List.mem_append_left _ (hl ▸ hx)
    · exact List.mem_append_right _ (mem_felsL_mem_allEventsL cs l hl x hx)

theorem mem_felsL_mem_allEventsL : ∀ (cs : List SB) (l : List Event), l ∈ felsL cs →
    ∀ x ∈ l, x ∈ allEventsL cs
  | [], l, hl, x, hx => by
    unfold felsL at hl
    exact absurd hl (List.not_mem_nil l)
  | c :: cs, l, hl, x, hx => by
    unfold felsL at hl
    unfold allEventsL
    rcases List.mem_append.mp hl with hl | hl
    · exact List.mem_append_left _ (mem_fels_mem_allEvents c l hl x hx)
    · exact List.mem_append_right _ (mem_felsL_mem_allEventsL cs l hl x hx)

end

theorem pick_eq_none (a b : Option Event) (h : pick a b = none) :
    a = none ∧ b = none := by
  unfold pick at h
  rcases a with _ | x
  · exact ⟨rfl, h⟩
  · rcases b with _ | y
    · exact absurd h (by simp)
    · dsimp only at h
      by_cases hlt : evLT y x
      · rw [if_pos hlt] at h
        exact absurd h (by simp)
      · rw [if_neg hlt] at h
        exact absurd h (by simp)

mutual

theorem headEvent_none : ∀ (t : SB), headEvent t = none → allEvents t = []
  | .mk f fel hcs w cs, h => by
    unfold headEvent at h
    unfold allEvents
    have h2 := headFold_none cs fel.head? h
    have hfel : fel = [] := List.head?_eq_none_iff.mp h2.1
    rw [hfel, h2.2]
    rfl

theorem headFold_none : ∀ (cs : List SB) (acc : Option Event),
    headFold acc cs = none → acc = none ∧ allEventsL cs = []
  | [], acc, h => by
    unfold headFold at h
    exact ⟨h, rfl⟩
  | c :: cs, acc, h => by
    unfold headFold at h
    have h2 := headFold_none cs (pick acc (headEvent c)) h
    have h3 := pick_eq_none _ _ h2.1
    unfold allEventsL
    rw [headEvent_none c h3.2, h2.2]
    exact ⟨h3.1, rfl⟩

end

mutual

theorem headEvent_min : ∀ (t : SB) (h : Event), SortedFels t → headEvent t = some h →
    ∀ y ∈ allEvents t, ¬ evLT y h
  | .mk f fel hcs w cs, h, hsort, hh, y, hy => by
    unfold headEvent at hh
    rcases (sortedFels_mk f fel hcs w cs).mp hsort with ⟨hfel, hcs'⟩
    have hmin := headFold_min cs fel.head? h hcs' hh
    unfold allEvents at hy
    rcases List.mem_append.mp hy with hy | hy
    · rcases fel with _ | ⟨a, rest⟩
      · exact absurd hy (List.not_mem_nil y)
      · have hah : ¬ evLT a h := hmin.1 a rfl
        rcases List.mem_cons.mp hy with hy | hy
        · exact hy ▸ hah
        · have hay : evLT a y := (List.pairwise_cons.mp hfel).1 y hy
          exact not_evLT_trans (evLT_asymm hay) hah
    · exact hmin.2 y hy

theorem headFold_min : ∀ (cs : List SB) (acc : Option Event) (h : Event),
    SortedFelsL cs → headFold acc cs = some h →
    (∀ a, acc = some a → ¬ evLT a h) ∧ (∀ y ∈ allEventsL cs, ¬ evLT y h)
  | [], acc, h, hsort, hh => by
    unfold headFold at hh
    refine ⟨?_, ?_⟩
    · intro a ha
      rw [ha] at hh
      cases Option.some.injEq .. ▸ hh
      exact fun hlt => evLT_irrefl h ((Option.some.inj hh) ▸ hlt)
    · intro y hy
      unfold allEventsL at hy
      exact absurd hy (List.not_mem_nil y)
  | c :: cs, acc, h, hsort, hh => by
    unfold headFold at hh
    rcases (sortedFelsL_cons c cs).mp hsort with ⟨hc, hcs⟩
    have ih := headFold_min cs (pick acc (headEvent c)) h hcs hh
    have hpick : ∀ a, acc = some a → ¬ evLT a h := by
      intro a ha
      subst ha
      cases hhc : headEvent c with
      | none =>
        apply ih.1
        unfold pick
        rw [hhc]
      | some c0 =>
        by_cases hlt : evLT c0 a
        · have h1 : ¬ evLT c0 h := by
            apply ih.1
            unfold pick
            rw [hhc]
            dsimp only
            rw [if_pos hlt]
          intro hah
          exact h1 (evLT_trans hlt hah)
        · apply ih.1
          unfold pick
          rw [hhc]
          dsimp only
          rw [if_neg hlt]
    have hchead : ∀ c0, headEvent c = some c0 → ¬ evLT c0 h := by
      intro c0 hhc
      rcases acc with _ | a
      · apply ih.1
        unfold pick
        rw [hhc]
      · by_cases hlt : evLT c0 a
        · apply ih.1
          unfold pick
          rw [hhc]
          dsimp only
          rw [if_pos hlt]
        · have ha : ¬ evLT a h := by
            apply ih.1
            unfold pick
            rw [hhc]
            dsimp only
            rw [if_neg hlt]
          exact not_evLT_trans hlt ha
    refine ⟨hpick, ?_⟩
    intro y hy
    unfold allEventsL at hy
    rcases List.mem_append.mp hy with hy | hy
    · cases hhc : headEvent c with
      | none =>
        rw [headEvent_none c hhc] at hy
        exact absurd hy (List.not_mem_nil y)
      | some c0 =>
        have h1 := headEvent_min c c0 hc hhc y hy
        exact not_evLT_trans h1 (hchead c0 hhc)
    · exact ih.2 y hy

end

mutual

theorem allEvents_insertAt : ∀ (e : Event) (t : SB) (p : List Nat),
    getNode t p ≠ none →
    List.Perm (allEvents (insertAt e t p)) (e :: allEvents t)
  | e, .mk f fel hcs w cs, [], hv => by
    unfold insertAt allEvents
    exact List.Perm.append_right (allEventsL cs) (insertEv_perm e fel)
  | e, .mk f fel hcs w cs, n :: p, hv => by
    unfold insertAt allEvents
    unfold getNode at hv
    have ih := allEventsL_insertAtL e cs n p hv
    exact (List.Perm.append_left fel ih).trans List.perm_middle

theorem allEventsL_insertAtL : ∀ (e : Event) (cs : List SB) (n : Nat) (p : List Nat),
    getNodeL cs n p ≠ none →
    List.Perm (allEventsL (insertAtL e cs n p)) (e :: allEventsL cs)
  | e, [], n, p, hv => by
    unfold getNodeL at hv
    exact absurd rfl hv
  | e, c :: cs, 0, p, hv => by
    unfold insertAtL allEventsL
    unfold getNodeL at hv
    exact List.Perm.append_right (allEventsL cs) (allEvents_insertAt e c p hv)
  | e, c :: cs, n + 1, p, hv => by
    unfold insertAtL allEventsL
    unfold getNodeL at hv
    have ih := allEventsL_insertAtL e cs n p hv
    exact (List.Perm.append_left (allEvents c) ih).trans List.perm_middle

end

mutual

theorem fels_insertAt_sub : ∀ (e : Event) (t : SB) (p : List Nat) (l : List Event),
    l ∈ fels (insertAt e t p) → l ∈ fels t ∨ ∃ l0 ∈ fels t, l = insertEv e l0
  | e, .mk f fel hcs w cs, [], l, hl => by
    unfold insertAt fels at hl
    unfold fels
    rcases List.mem_cons.mp hl with hl | hl
    · exact Or.inr ⟨fel, List.mem_cons_self _ _, hl⟩
    · exact Or.inl (List.mem_cons_of_mem _ hl)
  | e, .mk f fel hcs w cs, n :: p, l, hl => by
    unfold insertAt fels at hl
    unfold fels
    rcases List.mem_cons.mp hl with hl | hl
    · exact Or.inl (hl ▸ List.mem_cons_self _ _)
    · rcases felsL_insertAtL_sub e cs n p l hl with h | ⟨l0, hl0, hll⟩
      · exact Or.inl (List.mem_cons_of_mem _ h)
      · exact Or.inr ⟨l0, List.mem_cons_of_mem _ hl0, hll⟩

theorem felsL_insertAtL_sub : ∀ (e : Event) (cs : List SB) (n : Nat) (p : List Nat)
    (l : List Event),
    l ∈ felsL (insertAtL e cs n p) → l ∈ felsL cs ∨ ∃ l0 ∈ felsL cs, l = insertEv e l0
  | e, [], n, p, l, hl => by
    unfold insertAtL felsL at hl
    exact absurd hl (List.not_mem_nil l)
  | e, c :: cs, 0, p, l, hl => by
    unfold insertAtL felsL at hl
    unfold felsL
    rcases List.mem_append.mp hl with hl | hl
    · rcases fels_insertAt_sub e c p l hl with h | ⟨l0, hl0, hll⟩
      · exact Or.inl (List.mem_append_left _ h)
      · exact Or.inr ⟨l0, List.mem_append_left _ hl0, hll⟩
    · exact Or.inl (List.mem_append_right _ hl)
  | e, c :: cs, n + 1, p, l, hl => by
    unfold insertAtL felsL at hl
    unfold felsL
    rcases List.mem_append.mp hl with hl | hl
    · exact Or.inl (List.mem_append_left _ hl)
    · rcases felsL_insertAtL_sub e cs n p l hl with h | ⟨l0, hl0, hll⟩
      · exact Or.inl (List.mem_append_right _ h)
      · exact Or.inr ⟨l0, List.mem_append_right _ hl0, hll⟩

end

theorem insertAt_sortedFels (e : Event) (t : SB) (p : List Nat)
    (hs : SortedFels t) (hfresh : ∀ x ∈ allEvents t, x.index ≠ e.index) :
    SortedFels (insertAt e t p) := by
  intro l hl
  rcases fels_insertAt_sub e t p l hl with h | ⟨l0, hl0, hll⟩
  · exact hs l h
  · subst hll
    exact insertEv_pairwise e l0 (hs l0 hl0)
      (fun x hx => hfresh x (mem_fels_mem_allEvents t l0 hl0 x hx))

mutual

theorem fels_setFlags : ∀ (t : SB) (p : List Nat), fels (setFlags t p) = fels t
  | .mk f fel hcs w cs, [] => by
    unfold setFlags fels
    rfl
  | .mk f fel hcs w cs, n :: p => by
    unfold setFlags fels
    rw [felsL_setFlagsL cs n p]

theorem felsL_setFlagsL : ∀ (cs : List SB) (n : Nat) (p : List Nat),
    felsL (setFlagsL cs n p) = felsL cs
  | [], _, _ => by
    unfold setFlagsL
    rfl
  | c :: cs, 0, p => by
    unfold setFlagsL felsL
    rw [fels_setFlags c p]
  | c :: cs, n + 1, p => by
    unfold setFlagsL felsL
    rw [felsL_setFlagsL cs n p]

end

mutual

theorem allEvents_setFlags : ∀ (t : SB) (p : List Nat),
    allEvents (setFlags t p) = allEvents t
  | .mk f fel hcs w cs, [] => by
    unfold setFlags allEvents
    rfl
  | .mk f fel hcs w cs, n :: p => by
    unfold setFlags allEvents
    rw [allEventsL_setFlagsL cs n p]

theorem allEventsL_setFlagsL : ∀ (cs : List SB) (n : Nat) (p : List Nat),
    allEventsL (setFlagsL cs n p) = allEventsL cs
  | [], _, _ => by
    unfold setFlagsL
    rfl
  | c :: cs, 0, p => by
    unfold setFlagsL allEventsL
    rw [allEvents_setFlags c p]
  | c :: cs, n + 1, p => by
    unfold setFlagsL allEventsL
    rw [allEventsL_setFlagsL cs n p]

end

mutual

theorem fels_removeEv : ∀ (e : Event) (t : SB),
    fels (removeEv e t) = (fels t).map (List.filter (fun x => decide (x ≠ e)))
  | e, .mk f fel hcs w cs => by
    unfold removeEv fels
    rw [felsL_removeEvL e cs]
    rfl

theorem felsL_removeEvL : ∀ (e : Event) (cs : List SB),
    felsL (removeEvL e cs) = (felsL cs).map (List.filter (fun x => decide (x ≠ e)))
  | e, [] => by
    unfold removeEvL felsL
    rfl
  | e, c :: cs => by
    unfold removeEvL felsL
    rw [fels_removeEv e c, felsL_removeEvL e cs, List.map_append]

end

theorem removeEv_sortedFels (e : Event) (t : SB) (hs : SortedFels t) :
    SortedFels (removeEv e t) := by
  intro l hl
  rw [fels_removeEv] at hl
  rcases List.mem_map.mp hl with ⟨l0, hl0, hll⟩
  exact hll ▸ (hs l0 hl0).sublist (List.filter_sublist l0)

theorem idxNe_symm : Symmetric idxNe := fun _ _ h => Ne.symm h

mutual

theorem getNode_setFlags_isSome : ∀ (t : SB) (q p : List Nat),
    (getNode (setFlags t q) p).isSome = (getNode t p).isSome
  | .mk f fel hcs w cs, [], p => by
    unfold setFlags
    rcases p with _ | ⟨n, p'⟩
    · rfl
    · unfold getNode
      rfl
  | .mk f fel hcs w cs, m :: q', p => by
    unfold setFlags
    rcases p with _ | ⟨n, p'⟩
    · rfl
    · unfold getNode
      exact getNodeL_setFlagsL_isSome cs m q' n p'

theorem getNodeL_setFlagsL_isSome : ∀ (cs : List SB) (m : Nat) (q' : List Nat)
    (n : Nat) (p' : List Nat),
    (getNodeL (setFlagsL cs m q') n p').isSome = (getNodeL cs n p').isSome
  | [], _, _, n, p' => by
    unfold setFlagsL
    rfl
  | c :: cs, 0, q', 0, p' => by
    unfold setFlagsL getNodeL
    exact getNode_setFlags_isSome c q' p'
  | c :: cs, 0, q', n + 1, p' => by
    unfold setFlagsL getNodeL
    rfl
  | c :: cs, m + 1, q', 0, p' => by
    unfold setFlagsL getNodeL
    rfl
  | c :: cs, m + 1, q', n + 1, p' => by
    unfold setFlagsL getNodeL
    exact getNodeL_setFlagsL_isSome cs m q' n p'

end

theorem schedule_WF (st : RootState) (path : List Nat) (callable : Bool)
    (ct : ClockArg) (h : WF st) : WF (schedule st path callable ct).1 := by
  unfold schedule
  cases hget : getNode st.tree path with
  | none => exact h
  | some node =>
    dsimp only
    have htree1 :
        SortedFels (if node.flag = false then setFlags st.tree path else st.tree) ∧
        allEvents (if node.flag = false then setFlags st.tree path else st.tree) =
          allEvents st.tree ∧
        (getNode (if node.flag = false then setFlags st.tree path else st.tree) path).isSome
          = true := by
      by_cases hf : node.flag = false
      · rw [if_pos hf]
        refine ⟨?_, allEvents_setFlags st.tree path, ?_⟩
        · intro l hl
          rw [fels_setFlags] at hl
          exact h.1 l hl
        · rw [getNode_setFlags_isSome, hget]
          rfl
      · rw [if_neg hf]
        exact ⟨h.1, rfl, by rw [hget]; rfl⟩
    by_cases hc : callable = false
    · rw [if_pos hc]
      exact ⟨htree1.1, htree1.2.1 ▸ h.2.1, htree1.2.1 ▸ h.2.2⟩
    · rw [if_neg hc]
      cases hres : resolveCT st.clock ct with
      | none => exact ⟨htree1.1, htree1.2.1 ▸ h.2.1, htree1.2.1 ▸ h.2.2⟩
      | some τ =>
        dsimp only
        have hvalid : getNode (if node.flag = false then setFlags st.tree path else st.tree)
            path ≠ none := by
          intro hn
          rw [hn] at htree1
          exact absurd htree1.2.2 (by simp)
        have hperm := allEvents_insertAt ⟨st.counter + 1, τ⟩ _ path hvalid
        rw [htree1.2.1] at hperm
        have hfresh : ∀ x ∈ allEvents
            (if node.flag = false then setFlags st.tree path else st.tree),
            x.index ≠ (⟨st.counter + 1, τ⟩ : Event).index := by
          intro x hx
          rw [htree1.2.1] at hx
          have := h.2.2 x hx
          simp only []
          omega
        refine ⟨insertAt_sortedFels _ _ path htree1.1 hfresh, ?_, ?_⟩
        · refine (hperm.pairwise_iff (fun hab => idxNe_symm hab)).mpr ?_
          refine List.pairwise_cons.mpr ⟨?_, h.2.1⟩
          intro y hy
          have := h.2.2 y hy
          unfold idxNe
          simp only []
          omega
        · dsimp only
          intro x hx
          rcases List.mem_cons.mp (hperm.mem_iff.mp hx) with hx | hx
          · rw [hx]
          · have := h.2.2 x hx
            omega

theorem applyCalls_WF (st : RootState) (calls : List SchedCall) (h : WF st) :
    WF (applyCalls st calls) := by
  induction calls generalizing st with
  | nil => exact h
  | cons c rest ih =>
    unfold applyCalls
    rw [List.foldl_cons]
    exact ih _ (schedule_WF st c.path c.callable c.ct h)

theorem removeEv_pairwise_idx (e : Event) (t : SB)
    (h : (allEvents t).Pairwise idxNe) :
    (allEvents (removeEv e t)).Pairwise idxNe := by
  rw [allEvents_removeEv]
  exact h.sublist (List.filter_sublist _)

theorem firedSeq_mem : ∀ (n : Nat) (st : RootState) (y : Event),
    y ∈ firedSeq st n → y ∈ allEvents st.tree := by
  intro n
  induction n with
  | zero => intro st y hy; simp [firedSeq] at hy
  | succ m ih =>
    intro st y hy
    unfold firedSeq at hy
    cases hh : headEvent st.tree with
    | none => rw [hh] at hy; simp at hy
    | some e =>
      rw [hh] at hy
      rcases List.mem_cons.mp hy with hy | hy
      · exact hy ▸ headEvent_mem st.tree e hh
      · have := ih _ y hy
        dsimp only at this
        rw [allEvents_removeEv] at this
        exact (List.mem_filter.mp this).1

theorem firedSeq_pairwise : ∀ (n : Nat) (st : RootState),
    SortedFels st.tree → (allEvents st.tree).Pairwise idxNe →
    (firedSeq st n).Pairwise evLT := by
  intro n
  induction n with
  | zero => intro st _ _; simp [firedSeq]
  | succ m ih =>
    intro st hs hu
    unfold firedSeq
    cases hh : headEvent st.tree with
    | none => simp
    | some e =>
      dsimp only
      refine List.pairwise_cons.mpr ⟨?_, ?_⟩
      · intro y hy
        have hmem := firedSeq_mem m _ y hy
        dsimp only at hmem
        rw [allEvents_removeEv] at hmem
        have hyold := (List.mem_filter.mp hmem).1
        have hyne : y ≠ e := by
          have := (List.mem_filter.mp hmem).2
          simpa using this
        have hnlt : ¬ evLT y e := headEvent_min st.tree e hs hh y hyold
        have hidx : y.index ≠ e.index :=
          hu.forall (fun _ _ hab => idxNe_symm hab) hyold (headEvent_mem st.tree e hh)
            hyne
        rcases evLT_trichotomy e y with h1 | h1 | ⟨_, h1⟩
        · exact h1
        · exact absurd h1 hnlt
        · exact absurd h1.symm hidx
      · exact ih _ (removeEv_sortedFels e st.tree hs) (removeEv_pairwise_idx e st.tree hu)

/-- Claim C1: starting from any event-free sandbox tree, after any
sequence of `schedule` calls on any sandboxes of the tree, the events
fired by successive `run_once` calls at the root come in strictly
increasing `(scheduled_time, index)` order; in particular two events
with equal scheduled time fire in creation order, whichever sandbox owns
them. -/
theorem schedule_run_order (clock fc : ℚ) (c0 : Nat) (t0 : SB)
    (calls : List SchedCall) (n : Nat) (h : allEvents t0 = []) :
    (firedSeq (applyCalls ⟨clock, c0, fc, t0⟩ calls) n).Pairwise evLT := by
  have hWF : WF ⟨clock, c0, fc, t0⟩ := by
    refine ⟨?_, ?_, ?_⟩
    · intro l hl
      have : l = [] := by
        rw [List.eq_nil_iff_forall_not_mem]
        intro x hx
        have := mem_fels_mem_allEvents t0 l hl x hx
        rw [h] at this
        exact absurd this (List.not_mem_nil x)
      rw [this]
      exact List.Pairwise.nil
    · rw [show (⟨clock, c0, fc, t0⟩ : RootState).tree = t0 from rfl, h]
      exact List.Pairwise.nil
    · intro x hx
      rw [show (⟨clock, c0, fc, t0⟩ : RootState).tree = t0 from rfl, h] at hx
      exact absurd hx (List.not_mem_nil x)
  have hWF2 := applyCalls_WF _ calls hWF
  exact firedSeq_pairwise n _ hWF2.1 hWF2.2.1

/-- Witness for claim C1: two same-time events and a later one scheduled
on a fresh root fire in insertion order. -/
theorem schedule_run_order_witness :
    allEvents (mkSandbox 0).1 = [] ∧
    (firedSeq (applyCalls ⟨0, 0, 0, (mkSandbox 0).1⟩
      [⟨[], true, ClockArg.abs 5⟩, ⟨[], true, ClockArg.abs 5⟩, ⟨[], true, ClockArg.abs 2⟩])
      4).Pairwise evLT :=
  ⟨rfl, schedule_run_order 0 0 0 (mkSandbox 0).1
    [⟨[], true, ClockArg.abs 5⟩, ⟨[], true, ClockArg.abs 5⟩, ⟨[], true, ClockArg.abs 2⟩]
    4 rfl⟩

theorem getNode_nil (t : SB) : getNode t [] = some t := by
  cases t
  rfl

theorem schedule_abs_root_eq (st : RootState) (τ : ℚ) :
    schedule st [] true (ClockArg.abs τ) =
      ({ clock := st.clock, counter := st.counter + 1,
         firstClock := if st.tree.flag = false then st.clock else st.firstClock,
         tree := insertAt ⟨st.counter + 1, τ⟩
           (if st.tree.flag = false then setFlags st.tree [] else st.tree) [] },
       none) := by
  unfold schedule
  rw [getNode_nil]
  rfl

/-- Claim C9: `schedule` accepts an absolute instant strictly earlier
than the current root clock without raising, and — when no pending event
is earlier — the next `run_once` extracts exactly that event and moves
the root clock backwards to its scheduled time: the kernel never
enforces a non-decreasing clock. -/
theorem schedule_backwards_clock (st : RootState) (τ : ℚ)
    (hs : SortedFels st.tree)
    (hb : ∀ x ∈ allEvents st.tree, x.index ≤ st.counter)
    (hτe : ∀ y ∈ allEvents st.tree, τ < y.time)
    (hτc : τ < st.clock) :
    (schedule st [] true (ClockArg.abs τ)).2 = none ∧
    (run_once (schedule st [] true (ClockArg.abs τ)).1).2 = true ∧
    (run_once (schedule st [] true (ClockArg.abs τ)).1).1.clock = τ ∧
    τ < st.clock := by
  rw [schedule_abs_root_eq]
  set e : Event := ⟨st.counter + 1, τ⟩ with he
  set tree1 := if st.tree.flag = false then setFlags st.tree [] else st.tree with ht1
  have halleq : allEvents tree1 = allEvents st.tree := by
    rw [ht1]
    by_cases hf : st.tree.flag = false
    · rw [if_pos hf]
      exact allEvents_setFlags st.tree []
    · rw [if_neg hf]
  have hsort1 : SortedFels tree1 := by
    rw [ht1]
    by_cases hf : st.tree.flag = false
    · rw [if_pos hf]
      intro l hl
      rw [fels_setFlags] at hl
      exact hs l hl
    · rw [if_neg hf]
      exact hs
  have hfresh : ∀ x ∈ allEvents tree1, x.index ≠ e.index := by
    intro x hx
    rw [halleq] at hx
    have := hb x hx
    rw [he]
    simp only []
    omega
  have hvalid : getNode tree1 [] ≠ none := by
    unfold getNode
    simp
  have hperm := allEvents_insertAt e tree1 [] hvalid
  have hsort2 : SortedFels (insertAt e tree1 []) := insertAt_sortedFels e tree1 [] hsort1 hfresh
  have hmem_e : e ∈ allEvents (insertAt e tree1 []) :=
    hperm.mem_iff.mpr (List.mem_cons_self e _)
  have hhead : headEvent (insertAt e tree1 []) = some e := by
    cases hh : headEvent (insertAt e tree1 []) with
    | none =>
      rw [headEvent_none _ hh] at hmem_e
      exact absurd hmem_e (List.not_mem_nil e)
    | some h =>
      have hmem_h := headEvent_mem _ h hh
      rcases List.mem_cons.mp (hperm.mem_iff.mp hmem_h) with h1 | h1
      · rw [h1]
      · have hmin := headEvent_min _ h hsort2 hh e hmem_e
        have hτh : τ < h.time := by
          apply hτe
          rw [halleq] at h1
          exact h1
        have : evLT e h := (evLT_iff e h).mpr (Or.inl (by rw [he]; exact hτh))
        exact absurd this hmin
  refine ⟨rfl, ?_, ?_, hτc⟩
  · unfold run_once
    dsimp only
    rw [hhead]
  · unfold run_once
    dsimp only
    rw [hhead]

/-- Witness for claim C9 on a fresh root with clock 10 and an event
scheduled at the earlier absolute instant 3. -/
theorem schedule_backwards_clock_witness :
    (schedule ⟨10, 0, 0, (mkSandbox 0).1⟩ [] true (ClockArg.abs 3)).2 = none ∧
    (run_once (schedule ⟨10, 0, 0, (mkSandbox 0).1⟩ [] true (ClockArg.abs 3)).1).2 = true ∧
    (run_once (schedule ⟨10, 0, 0, (mkSandbox 0).1⟩ [] true (ClockArg.abs 3)).1).1.clock = 3 ∧
    (3 : ℚ) < 10 :=
  schedule_backwards_clock ⟨10, 0, 0, (mkSandbox 0).1⟩ 3
    (by intro l hl; rcases List.mem_cons.mp hl with h | h; · rw [h]; exact List.Pairwise.nil
        · exact absurd h (List.not_mem_nil l))
    (fun x hx => absurd hx (List.not_mem_nil x))
    (fun y hy => absurd hy (List.not_mem_nil y))
    (by norm_num)

theorem warmupHC_idem (hc : HourCounter) (c : ℚ) :
    warmupHC (warmupHC hc c) c = warmupHC hc c := rfl

theorem foldWarm_notmem (l : List Nat) (store : HCStore) (c : ℚ) (i : Nat)
    (hi : i ∉ l) :
    (l.foldl (fun st j => updStore st j (warmupHC (st j) c)) store) i = store i := by
  induction l generalizing store with
  | nil => rfl
  | cons j rest ih =>
    rw [List.foldl_cons]
    have hij : i ≠ j := fun h => hi (h ▸ List.mem_cons_self j rest)
    rw [ih _ (fun h => hi (List.mem_cons_of_mem j h))]
    unfold updStore
    rw [if_neg hij]

theorem foldWarm_mem (l : List Nat) (store : HCStore) (c : ℚ) (i : Nat)
    (hi : i ∈ l) :
    (l.foldl (fun st j => updStore st j (warmupHC (st j) c)) store) i =
      warmupHC (store i) c := by
  induction l generalizing store with
  | nil => exact absurd hi (List.not_mem_nil i)
  | cons j rest ih =>
    rw [List.foldl_cons]
    by_cases hmem : i ∈ rest
    · rw [ih _ hmem]
      by_cases hij : i = j
      · subst hij
        unfold updStore
        rw [if_pos rfl, warmupHC_idem]
      · unfold updStore
        rw [if_neg hij]
    · have hij : i = j := by
        rcases List.mem_cons.mp hi with h | h
        · exact h
        · exact absurd h hmem
      subst hij
      rw [foldWarm_notmem rest _ c i hmem]
      unfold updStore
      rw [if_pos rfl]

/-- Claim C6 as amended: after `warmup_until(t)` on a tree whose head
event is not scheduled after `t`, every hour counter whose `warmup` was
spliced into the root's `on_warmup` chain (the root's own counters, and
a descendant's counters that existed when the descendant was attached)
has `initial_time = t`, `total_hours = 0`, `cum_value = 0`, with
`last_count` and `paused` preserved. -/
theorem warmup_until_spec (s : SimState) (till : ℚ)
    (hhead : ∀ e, headEvent s.root.tree = some e → e.time ≤ till)
    (i : Nat) (hi : i ∈ s.root.tree.onWarmup) :
    ((warmupUntil s till).1.store i).initial_time = till ∧
    ((warmupUntil s till).1.store i).total_hours = 0 ∧
    ((warmupUntil s till).1.store i).cum_value = 0 ∧
    ((warmupUntil s till).1.store i).last_count = (s.store i).last_count ∧
    ((warmupUntil s till).1.store i).paused = (s.store i).paused := by
  have hr := runUntilGo_spec ((allEvents s.root.tree).length + 1) s.root till (by omega)
  unfold warmupUntil
  dsimp only
  rw [show runUntil s.root till =
    runUntilGo ((allEvents s.root.tree).length + 1) s.root till from rfl]
  rw [hr.2.2, hr.1]
  rw [foldWarm_mem _ _ _ i hi]
  exact ⟨rfl, rfl, rfl, rfl, rfl⟩

/-- Witness for the amended claim C6: a root whose main counter is reset
by `warmup_until(7)`. -/
theorem warmup_until_spec_witness :
    ((warmupUntil ⟨⟨0, 0, 0, (mkSandbox 0).1⟩, fun _ => freshHC false, 1⟩ 7).1.store 0).initial_time
      = 7 ∧
    ((warmupUntil ⟨⟨0, 0, 0, (mkSandbox 0).1⟩, fun _ => freshHC false, 1⟩ 7).1.store 0).total_hours
      = 0 ∧
    ((warmupUntil ⟨⟨0, 0, 0, (mkSandbox 0).1⟩, fun _ => freshHC false, 1⟩ 7).1.store 0).cum_value
      = 0 ∧
    ((warmupUntil ⟨⟨0, 0, 0, (mkSandbox 0).1⟩, fun _ => freshHC false, 1⟩ 7).1.store 0).last_count
      = (freshHC false).last_count ∧
    ((warmupUntil ⟨⟨0, 0, 0, (mkSandbox 0).1⟩, fun _ => freshHC false, 1⟩ 7).1.store 0).paused
      = (freshHC false).paused :=
  warmup_until_spec ⟨⟨0, 0, 0, (mkSandbox 0).1⟩, fun _ => freshHC false, 1⟩ 7
    (fun e he => by simp [headEvent, headFold, mkSandbox] at he)
    0 (List.mem_cons_self 0 [])

/-- Counterexample to claim C6 as stated: a counter added to a child
after the child was attached by `add_child` is in the tree but its
`warmup` is not in the root's `on_warmup`, so `warmup_until(1)` leaves
its `initial_time` at `datetime.min` (here `0`), not `1`. -/
theorem warmup_until_missed_counter_cex :
    (2 : Nat) ∈ allHCs (addHourCounter
      ⟨⟨0, 0, 0, addChild (mkSandbox 0).1 (mkSandbox 1).1⟩, fun _ => freshHC false, 2⟩
      [0] false).root.tree ∧
    ((warmupUntil (addHourCounter
      ⟨⟨0, 0, 0, addChild (mkSandbox 0).1 (mkSandbox 1).1⟩, fun _ => freshHC false, 2⟩
      [0] false) 1).1.store 2).initial_time = 0 ∧
    ((warmupUntil (addHourCounter
      ⟨⟨0, 0, 0, addChild (mkSandbox 0).1 (mkSandbox 1).1⟩, fun _ => freshHC false, 2⟩
      [0] false) 1).1.store 2).initial_time ≠ 1 := by
  refine ⟨by decide, ?_, ?_⟩ <;> decide

theorem roundHE_bounds (q : ℚ) : ⌊q⌋ ≤ roundHE q ∧ roundHE q ≤ ⌊q⌋ + 1 := by
  unfold roundHE
  split_ifs <;> omega

theorem roundHE_mono {a b : ℚ} (h : a ≤ b) : roundHE a ≤ roundHE b := by
  have hfl : ⌊a⌋ ≤ ⌊b⌋ := Int.floor_le_floor h
  rcases lt_or_eq_of_le hfl with hlt | heq
  · have h1 := roundHE_bounds a
    have h2 := roundHE_bounds b
    omega
  · unfold roundHE
    rw [← heq]
    have hfr : a - (⌊a⌋ : ℚ) ≤ b - (⌊a⌋ : ℚ) := by linarith
    split_ifs <;> first | omega | linarith

theorem round2_mono {a b : ℚ} (h : a ≤ b) : round2 a ≤ round2 b := by
  unfold round2
  have h1 : roundHE (100 * a) ≤ roundHE (100 * b) := roundHE_mono (by linarith)
  have h2 : ((roundHE (100 * a) : ℤ) : ℚ) ≤ ((roundHE (100 * b) : ℤ) : ℚ) :=
    Int.cast_le.mpr h1
  linarith

theorem round2_one : round2 1 = 1 := by
  unfold round2 roundHE
  norm_num

theorem fdiv_mul_le (a w : ℤ) (hw : 0 < w) : a.fdiv w * w ≤ a := by
  rw [Int.fdiv_eq_ediv _ (le_of_lt hw)]
  have h1 : 0 ≤ a % w := Int.emod_nonneg a (ne_of_gt hw)
  have h2 : a % w + w * (a / w) = a := Int.emod_add_ediv a w
  nlinarith

theorem fdiv_le_fdiv (a b w : ℤ) (hw : 0 < w) (h : a ≤ b) : a.fdiv w ≤ b.fdiv w := by
  rw [Int.fdiv_eq_ediv _ (le_of_lt hw), Int.fdiv_eq_ediv _ (le_of_lt hw)]
  exact Int.ediv_le_ediv hw h

theorem lbOf_mono (w : ℤ) (hw : 0 < w) (c c' : ℤ) (h : c ≤ c') :
    lbOf w c ≤ lbOf w c' := by
  unfold lbOf
  dsimp only
  have hk : c.fdiv w ≤ c'.fdiv w := fdiv_le_fdiv c c' w hw h
  have hkc : c.fdiv w * w ≤ c := fdiv_mul_le c w hw
  have hkc' : c'.fdiv w * w ≤ c' := fdiv_mul_le c' w hw
  rcases lt_or_eq_of_le hk with hlt | heq
  · have hmul : (c.fdiv w + 1) * w ≤ c'.fdiv w * w :=
      mul_le_mul_of_nonneg_right (by omega) (le_of_lt hw)
    split_ifs <;> nlinarith
  · rw [← heq]
    by_cases hA : 0 < c.fdiv w * w ∧ c.fdiv w * w = c
    · rw [if_pos hA]
      by_cases hB : 0 < c.fdiv w * w ∧ c.fdiv w * w = c'
      · rw [if_pos hB]
      · rw [if_neg hB]
        linarith
    · rw [if_neg hA]
      by_cases hB : 0 < c.fdiv w * w ∧ c.fdiv w * w = c'
      · exact absurd ⟨hB.1, by omega⟩ hA
      · rw [if_neg hB]

theorem insortPair_perm (p : ℤ × ℚ) (l : List (ℤ × ℚ)) :
    List.Perm (insortPair p l) (p :: l) := by
  induction l with
  | nil => simp [insortPair]
  | cons q qs ih =>
    unfold insortPair
    by_cases h : p.1 ≤ q.1
    · simp [h]
    · simp only [h, if_false]
      exact (List.Perm.cons q ih).trans (List.Perm.swap p q qs)

theorem sortHFC_perm (l : List (ℤ × ℚ)) : List.Perm (sortHFC l) l := by
  induction l with
  | nil => simp [sortHFC]
  | cons x xs ih =>
    unfold sortHFC
    rw [List.foldr_cons]
    exact (insortPair_perm x _).trans (List.Perm.cons x ih)

theorem insortPair_sorted (p : ℤ × ℚ) (l : List (ℤ × ℚ))
    (hs : l.Pairwise (fun a b => a.1 ≤ b.1)) :
    (insortPair p l).Pairwise (fun a b => a.1 ≤ b.1) := by
  induction l with
  | nil => simp [insortPair]
  | cons q qs ih =>
    unfold insortPair
    rcases List.pairwise_cons.mp hs with ⟨hq, hqs⟩
    by_cases h : p.1 ≤ q.1
    · simp only [h, if_true]
      refine List.pairwise_cons.mpr ⟨?_, hs⟩
      intro y hy
      rcases List.mem_cons.mp hy with hy | hy
      · exact hy ▸ h
      · exact le_trans h (hq y hy)
    · simp only [h, if_false]
      refine List.pairwise_cons.mpr ⟨?_, ih hqs⟩
      intro y hy
      rcases List.mem_cons.mp ((insortPair_perm p qs).mem_iff.mp hy) with hy | hy
      · exact hy ▸ le_of_lt (lt_of_not_le h)
      · exact hq y hy

theorem sortHFC_sorted (l : List (ℤ × ℚ)) :
    (sortHFC l).Pairwise (fun a b => a.1 ≤ b.1) := by
  induction l with
  | nil => simp [sortHFC]
  | cons x xs ih =>
    unfold sortHFC
    rw [List.foldr_cons]
    exact insortPair_sorted x _ ih

theorem updateAssoc_sum (acc : List (ℤ × ℚ)) (k : ℤ) (v : ℚ) :
    ((updateAssoc acc k v).map Prod.snd).sum = (acc.map Prod.snd).sum + v := by
  induction acc with
  | nil => simp [updateAssoc]
  | cons q rest ih =>
    unfold updateAssoc
    by_cases h : q.1 = k
    · simp only [h, if_pos rfl]
      simp
      ring
    · simp only [h, if_false]
      simp [ih]
      ring

theorem updateAssoc_nonneg (acc : List (ℤ × ℚ)) (k : ℤ) (v : ℚ)
    (ha : ∀ q ∈ acc, 0 ≤ q.2) (hv : 0 ≤ v) :
    ∀ q ∈ updateAssoc acc k v, 0 ≤ q.2 := by
  induction acc with
  | nil =>
    intro q hq
    unfold updateAssoc at hq
    rcases List.mem_cons.mp hq with hq | hq
    · exact hq ▸ hv
    · exact absurd hq (List.not_mem_nil q)
  | cons p rest ih =>
    intro q hq
    unfold updateAssoc at hq
    by_cases h : p.1 = k
    · rw [if_pos h] at hq
      rcases List.mem_cons.mp hq with hq | hq
      · have hp : 0 ≤ p.2 := ha p (List.mem_cons_self p rest)
        rw [hq]
        dsimp only
        linarith
      · exact ha q (List.mem_cons_of_mem p hq)
    · rw [if_neg h] at hq
      rcases List.mem_cons.mp hq with hq | hq
      · exact hq ▸ ha p (List.mem_cons_self p rest)
      · exact ih (fun r hr => ha r (List.mem_cons_of_mem p hr)) q hq

theorem updateAssoc_keys_of_mem (acc : List (ℤ × ℚ)) (k : ℤ) (v : ℚ)
    (h : k ∈ acc.map Prod.fst) :
    (updateAssoc acc k v).map Prod.fst = acc.map Prod.fst := by
  induction acc with
  | nil => simp at h
  | cons p rest ih =>
    unfold updateAssoc
    by_cases hp : p.1 = k
    · rw [if_pos hp]
      simp
    · rw [if_neg hp]
      have h' : k ∈ p.1 :: rest.map Prod.fst := by
        rw [← List.map_cons]
        exact h
      have h2 : k ∈ rest.map Prod.fst := by
        rcases List.mem_cons.mp h' with h3 | h3
        · exact absurd h3.symm hp
        · exact h3
      simp [ih h2]

theorem updateAssoc_of_notmem (acc : List (ℤ × ℚ)) (k : ℤ) (v : ℚ)
    (h : k ∉ acc.map Prod.fst) :
    updateAssoc acc k v = acc ++ [(k, v)] := by
  induction acc with
  | nil => simp [updateAssoc]
  | cons p rest ih =>
    unfold updateAssoc
    have hp : p.1 ≠ k := by
      intro hh
      exact h (by simp [hh])
    rw [if_neg hp, ih (fun hh => h (by simp; exact Or.inr (by simpa using hh)))]
    simp

theorem foldLB_sum (w : ℤ) (xs acc : List (ℤ × ℚ)) :
    ((xs.foldl (fun acc p => updateAssoc acc (lbOf w p.1) p.2) acc).map Prod.snd).sum =
      (acc.map Prod.snd).sum + (xs.map Prod.snd).sum := by
  induction xs generalizing acc with
  | nil => simp
  | cons p rest ih =>
    rw [List.foldl_cons, ih, updateAssoc_sum]
    simp
    ring

theorem foldLB_nonneg (w : ℤ) (xs acc : List (ℤ × ℚ))
    (ha : ∀ q ∈ acc, 0 ≤ q.2) (hx : ∀ p ∈ xs, 0 ≤ p.2) :
    ∀ q ∈ xs.foldl (fun acc p => updateAssoc acc (lbOf w p.1) p.2) acc, 0 ≤ q.2 := by
  induction xs generalizing acc with
  | nil => exact ha
  | cons p rest ih =>
    rw [List.foldl_cons]
    exact ih _
      (updateAssoc_nonneg acc _ p.2 ha (hx p (List.mem_cons_self p rest)))
      (fun q hq => hx q (List.mem_cons_of_mem p hq))

theorem foldLB_keys_sorted (w : ℤ) (xs acc : List (ℤ × ℚ))
    (hacc : (acc.map Prod.fst).Pairwise (· < ·))
    (hxs : xs.Pairwise (fun p q => lbOf w p.1 ≤ lbOf w q.1))
    (hbound : ∀ a ∈ acc.map Prod.fst, ∀ p ∈ xs, a ≤ lbOf w p.1) :
    ((xs.foldl (fun acc p => updateAssoc acc (lbOf w p.1) p.2) acc).map
      Prod.fst).Pairwise (· < ·) := by
  induction xs generalizing acc with
  | nil => exact hacc
  | cons p rest ih =>
    rw [List.foldl_cons]
    rcases List.pairwise_cons.mp hxs with ⟨hp, hrest⟩
    by_cases hk : lbOf w p.1 ∈ acc.map Prod.fst
    · refine ih _ ?_ hrest ?_
      · rw [updateAssoc_keys_of_mem _ _ _ hk]
        exact hacc
      · rw [updateAssoc_keys_of_mem _ _ _ hk]
        intro a ha q hq
        exact hbound a ha q (List.mem_cons_of_mem p hq)
    · rw [updateAssoc_of_notmem _ _ _ hk]
      refine ih _ ?_ hrest ?_
      · rw [List.map_append]
        refine List.pairwise_append.mpr ⟨hacc, by simp, ?_⟩
        intro a ha b hb
        have hb' : b = lbOf w p.1 := by simpa using hb
        have hale : a ≤ lbOf w p.1 := hbound a ha p (List.mem_cons_self p rest)
        have hane : a ≠ lbOf w p.1 := fun hh => hk (hh ▸ ha)
        rw [hb']
        exact lt_of_le_of_ne hale hane
      · rw [List.map_append]
        intro a ha q hq
        rcases List.mem_append.mp ha with ha | ha
        · exact hbound a ha q (List.mem_cons_of_mem p hq)
        · have ha' : a = lbOf w p.1 := by simpa using ha
          exact ha' ▸ hp q hq

theorem histTriples_nil (total cum : ℚ) : histTriples total cum [] = [] := rfl

theorem histTriples_cons (total cum : ℚ) (p : ℤ × ℚ) (rest : List (ℤ × ℚ)) :
    histTriples total cum (p :: rest) =
      (p.1, (round2 p.2, round2 (p.2 / total), round2 ((cum + p.2) / total)))
        :: histTriples total (cum + p.2) rest := rfl

theorem histTriples_keys (total : ℚ) : ∀ (l : List (ℤ × ℚ)) (cum : ℚ),
    (histTriples total cum l).map Prod.fst = l.map Prod.fst
  | [], _ => rfl
  | p :: rest, cum => by
    unfold histTriples
    rw [List.map_cons, List.map_cons, histTriples_keys total rest (cum + p.2)]

theorem histTriples_third_ge (total : ℚ) (htotal : 0 < total) :
    ∀ (l : List (ℤ × ℚ)) (cum : ℚ), (∀ p ∈ l, 0 ≤ p.2) →
    ∀ x ∈ (histTriples total cum l).map (fun p => p.2.2.2),
      round2 (cum / total) ≤ x
  | [], _, _, x, hx => by simp [histTriples] at hx
  | p :: rest, cum, hv, x, hx => by
    unfold histTriples at hx
    rw [List.map_cons] at hx
    have hstep : round2 (cum / total) ≤ round2 ((cum + p.2) / total) := by
      apply round2_mono
      have hp2 := hv p (List.mem_cons_self p rest)
      gcongr
      linarith
    rcases List.mem_cons.mp hx with hx | hx
    · rw [hx]
      exact hstep
    · exact le_trans hstep
        (histTriples_third_ge total htotal rest (cum + p.2)
          (fun q hq => hv q (List.mem_cons_of_mem p hq)) x hx)

theorem histTriples_third_pairwise (total : ℚ) (htotal : 0 < total) :
    ∀ (l : List (ℤ × ℚ)) (cum : ℚ), (∀ p ∈ l, 0 ≤ p.2) →
    ((histTriples total cum l).map (fun p => p.2.2.2)).Pairwise (· ≤ ·)
  | [], _, _ => by simp [histTriples]
  | p :: rest, cum, hv => by
    unfold histTriples
    rw [List.map_cons]
    refine List.pairwise_cons.mpr ⟨?_, ?_⟩
    · intro x hx
      exact histTriples_third_ge total htotal rest (cum + p.2)
        (fun q hq => hv q (List.mem_cons_of_mem p hq)) x hx
    · exact histTriples_third_pairwise total htotal rest (cum + p.2)
        (fun q hq => hv q (List.mem_cons_of_mem p hq))

theorem histTriples_third_last (total : ℚ) : ∀ (l : List (ℤ × ℚ)) (cum : ℚ), l ≠ [] →
    ((histTriples total cum l).map (fun p => p.2.2.2)).getLast? =
      some (round2 ((cum + (l.map Prod.snd).sum) / total))
  | [], _, h => absurd rfl h
  | [p], cum, _ => by simp [histTriples]
  | p :: q :: rest, cum, _ => by
    have ih := histTriples_third_last total (q :: rest) (cum + p.2) (by simp)
    rw [histTriples_cons, List.map_cons, histTriples_cons, List.map_cons,
      List.getLast?_cons_cons]
    rw [histTriples_cons, List.map_cons] at ih
    rw [ih]
    congr 2
    simp only [List.map_cons, List.sum_cons]
    ring

theorem map_div_sum (l : List (ℤ × ℚ)) (s : ℚ) :
    (l.map (fun p => p.2 / s)).sum = (l.map Prod.snd).sum / s := by
  induction l with
  | nil => simp
  | cons p t ih => simp [ih, add_div]

/-- Claim C8 as amended: for a nonempty `hours_for_count` with
nonnegative dwell hours and positive total, and any `width > 0`, the
pre-rounding bucket ratios of `histogram(width)` sum to exactly 1, the
buckets are returned in ascending low-bound order, the returned
(two-decimal-rounded) cumulative ratios are non-decreasing in that
order, and the last returned cumulative ratio is exactly 1.  (The
returned `hour_ratio` entries themselves are rounded, and their sum can
fall short of 1 by the rounding, see the counterexample.) -/
theorem histogram_spec (w : ℤ) (hfc : List (ℤ × ℚ)) (hw : 0 < w) (hne : hfc ≠ [])
    (hv : ∀ p ∈ hfc, 0 ≤ p.2) (hs : 0 < (hfc.map Prod.snd).sum) :
    ((lb2hours w hfc).map
      (fun p => p.2 / ((lb2hours w hfc).map Prod.snd).sum)).sum = 1 ∧
    ((histogram w hfc).map Prod.fst).Pairwise (· ≤ ·) ∧
    ((histogram w hfc).map (fun p => p.2.2.2)).Pairwise (· ≤ ·) ∧
    ((histogram w hfc).map (fun p => p.2.2.2)).getLast? = some 1 := by
  have hsortv : ∀ p ∈ sortHFC hfc, 0 ≤ p.2 :=
    fun p hp => hv p ((sortHFC_perm hfc).mem_iff.mp hp)
  have htot_eq : ((lb2hours w hfc).map Prod.snd).sum = (hfc.map Prod.snd).sum := by
    unfold lb2hours
    rw [foldLB_sum]
    simp
    exact ((sortHFC_perm hfc).map Prod.snd).sum_eq
  have htot : 0 < ((lb2hours w hfc).map Prod.snd).sum := htot_eq ▸ hs
  have hlbv : ∀ q ∈ lb2hours w hfc, 0 ≤ q.2 := by
    unfold lb2hours
    exact foldLB_nonneg w _ [] (by simp) hsortv
  have hlbne : lb2hours w hfc ≠ [] := by
    intro hh
    rw [hh] at htot
    simp at htot
  have hhist : histogram w hfc =
      histTriples ((lb2hours w hfc).map Prod.snd).sum 0 (lb2hours w hfc) := by
    unfold histogram
    rw [if_neg hne]
  refine ⟨?_, ?_, ?_, ?_⟩
  · rw [map_div_sum]
    exact div_self (ne_of_gt htot)
  · rw [hhist, histTriples_keys]
    refine List.Pairwise.imp le_of_lt ?_
    unfold lb2hours
    refine foldLB_keys_sorted w _ [] (by simp) ?_ (by simp)
    exact (sortHFC_sorted hfc).imp (fun hpq => lbOf_mono w hw _ _ hpq)
  · rw [hhist]
    exact histTriples_third_pairwise _ htot _ 0 hlbv
  · rw [hhist, histTriples_third_last _ _ 0 hlbne]
    rw [zero_add, div_self (ne_of_gt htot), round2_one]

/-- Witness for the amended claim C8 at a concrete dwell profile. -/
theorem histogram_spec_witness :
    ((lb2hours 10 [(0, 1), (10, 2)]).map
      (fun p => p.2 / ((lb2hours 10 [(0, 1), (10, 2)]).map Prod.snd).sum)).sum = 1 ∧
    ((histogram 10 [(0, 1), (10, 2)]).map Prod.fst).Pairwise (· ≤ ·) ∧
    ((histogram 10 [(0, 1), (10, 2)]).map (fun p => p.2.2.2)).Pairwise (· ≤ ·) ∧
    ((histogram 10 [(0, 1), (10, 2)]).map (fun p => p.2.2.2)).getLast? = some 1 :=
  histogram_spec 10 [(0, 1), (10, 2)] (by norm_num) (by simp)
    (by intro p hp; rcases List.mem_cons.mp hp with h | h
        · rw [h]; norm_num
        · rcases List.mem_cons.mp h with h2 | h2
          · rw [h2]; norm_num
          · exact absurd h2 (List.not_mem_nil p))
    (by norm_num)

/-- Counterexample to claim C8 as stated: three equal one-hour buckets
give rounded `hour_ratio` entries of `0.33` each, whose sum `0.99`
differs from 1.0 by far more than floating tolerance. -/
theorem round2_third : round2 (1 / 3 : ℚ) = 33 / 100 := by
  unfold round2
  have hq : (100 : ℚ) * (1 / 3) = 100 / 3 := by norm_num
  rw [hq]
  have hf : ⌊(100 : ℚ) / 3⌋ = 33 := by
    rw [Int.floor_eq_iff]
    constructor <;> norm_num
  unfold roundHE
  rw [hf]
  norm_num

theorem histogram_ratio_sum_cex :
    ((histogram 5 [(1, 1), (6, 1), (11, 1)]).map (fun p => p.2.2.1)).sum = 99 / 100 ∧
    (99 / 100 : ℚ) ≠ 1 := by
  refine ⟨?_, by norm_num⟩
  have hlb : lb2hours 5 [(1, 1), (6, 1), (11, 1)] = [(0, 1), (5, 1), (10, 1)] := by decide
  have hsum : (([(0, 1), (5, 1), (10, 1)] : List (ℤ × ℚ)).map Prod.snd).sum = 3 := by
    norm_num
  unfold histogram
  rw [if_neg (by simp)]
  dsimp only
  rw [hlb, hsum]
  rw [histTriples_cons, histTriples_cons, histTriples_cons, histTriples_nil]
  simp only [List.map_cons, List.map_nil, List.sum_cons, List.sum_nil]
  norm_num
  rw [show ((1 : ℚ)) / 3 = 1 / 3 from rfl]
  rw [round2_third]
  norm_num

end O2DES
